import Mathlib

/-!
Verification of the LendSmart credit-scoring core against its natural-language
specification.

The definitions below are a shallow embedding of the Python sources:

* `code/credit_risk_models/src/credit_scoring_model.py`
  (`CreditScoringModel.calculate_credit_score`, `_identify_feature_types`,
  `_perform_feature_engineering`, `train`, `predict`,
  `predict_with_explanation`, `ModelIntegrator.predict`)
* `code/ml_models/src/scoring.py`
  (the `AlternativeDataScorer` family and `AlternativeDataScoreAggregator`)
* `code/integration/integration.py` (`_determine_decision`)

Modelling conventions: numeric values are rationals (`ℚ`); Python `float`
arithmetic is modelled exactly over `ℚ`. Transcendental library functions
(`np.log`, `np.log1p`) are passed in as explicit function parameters, so all
theorems hold for an arbitrary interpretation of them. Fallible operations
return `Except String`. Data frames are ordered association lists of named
columns together with a row count, mirroring `pandas.DataFrame`.
-/

namespace LendSmart

/-- Truncation toward zero, the behaviour of Python's `int()` applied to a
real number. For non-negative arguments it coincides with the floor. -/
def pyInt (x : ℚ) : ℤ :=
  if 0 ≤ x then ⌊x⌋ else ⌈x⌉

/-- Embedding of `CreditScoringModel.calculate_credit_score`
(`credit_scoring_model.py`, lines 694–705):
`score = int(850 - default_prob * 550); return max(300, min(850, score))`. -/
def calculate_credit_score (default_prob : ℚ) : ℤ :=
  let score : ℤ := pyInt (850 - default_prob * 550)
  max 300 (min 850 score)

/-- The score converter as the specification words it:
`clamp(round(850 - 550·p), 300, 850)`, with rounding to the nearest integer.
This definition follows the spec text, for comparison with
`calculate_credit_score`, which follows the source. -/
def creditScoreSpecRounded (p : ℚ) : ℤ :=
  max 300 (min 850 (round ((850 : ℚ) - 550 * p)))

/-- Embedding of `LendingPlatformIntegrator._determine_decision`
(`integration/integration.py`, lines 324–341): the threshold chain
750 / 650 / 600 applied to the bounded credit score. -/
def determine_decision (credit_score : ℚ) : String :=
  if 750 ≤ credit_score then "Approved"
  else if 650 ≤ credit_score then "Conditionally Approved"
  else if 600 ≤ credit_score then "Manual Review Required"
  else "Declined"

end LendSmart

namespace LendSmart

theorem pyInt_of_nonneg {x : ℚ} (h : 0 ≤ x) : pyInt x = ⌊x⌋ := by
  simp [pyInt, h]

/-- C1 counterexample: at `p = 1/1100` the affine value is `849.5`; the code
truncates it to `849` while the specification's `round` yields `850`. -/
theorem calculate_credit_score_ne_spec_at_1_div_1100 :
    calculate_credit_score (1 / 1100) ≠ creditScoreSpecRounded (1 / 1100) := by
  have h1 : calculate_credit_score (1 / 1100) = 849 := by
    have hval : (850 : ℚ) - (1 / 1100) * 550 = 1699 / 2 := by norm_num
    have hnn : (0 : ℚ) ≤ 850 - (1 / 1100) * 550 := by rw [hval]; norm_num
    have hfl : ⌊(1699 : ℚ) / 2⌋ = 849 := by
      rw [Int.floor_eq_iff]
      norm_num
    simp only [calculate_credit_score, pyInt, if_pos hnn, hval, hfl]
    norm_num
  have h2 : creditScoreSpecRounded (1 / 1100) = 850 := by
    have hval : (850 : ℚ) - 550 * (1 / 1100) = 1699 / 2 := by norm_num
    have hsum : (1699 : ℚ) / 2 + 1 / 2 = 850 := by norm_num
    have hrd : round ((1699 : ℚ) / 2) = 850 := by
      rw [round_eq, hsum]
      rw [Int.floor_eq_iff]
      norm_num
    simp only [creditScoreSpecRounded, hval, hrd]
    norm_num
  rw [h1, h2]
  norm_num

/-- C1 (amended): for every default probability `p ∈ [0,1]`,
`calculate_credit_score p` equals the affine map `850 - 550·p` truncated
toward zero (Python `int()`, which here is the floor since the value is
non-negative) and clamped to `[300, 850]`; it is a pure function of `p`. -/
theorem calculate_credit_score_eq_clamp_floor (p : ℚ) (h0 : 0 ≤ p) (h1 : p ≤ 1) :
    calculate_credit_score p = max 300 (min 850 ⌊(850 : ℚ) - 550 * p⌋) := by
  have hnn : (0 : ℚ) ≤ 850 - p * 550 := by nlinarith
  simp only [calculate_credit_score, pyInt, if_pos hnn]
  ring_nf

/-- Witness for `calculate_credit_score_eq_clamp_floor` at `p = 1/2`. -/
theorem calculate_credit_score_eq_clamp_floor_witness :
    (0 : ℚ) ≤ 1 / 2 ∧ (1 : ℚ) / 2 ≤ 1 ∧
      calculate_credit_score (1 / 2) =
        max 300 (min 850 ⌊(850 : ℚ) - 550 * (1 / 2)⌋) :=
  ⟨by norm_num, by norm_num,
    calculate_credit_score_eq_clamp_floor (1 / 2) (by norm_num) (by norm_num)⟩

/-- C7: for probabilities `p₁ ≤ p₂` in `[0,1]`, both bounded scores lie in
`[300, 850]` and the score at `p₁` is at least the score at `p₂`
(the converter is monotonically non-increasing in the probability). -/
theorem calculate_credit_score_bounds_and_antitone
    (p₁ p₂ : ℚ) (h0 : 0 ≤ p₁) (h12 : p₁ ≤ p₂) (h1 : p₂ ≤ 1) :
    300 ≤ calculate_credit_score p₁ ∧ calculate_credit_score p₁ ≤ 850 ∧
    300 ≤ calculate_credit_score p₂ ∧ calculate_credit_score p₂ ≤ 850 ∧
    calculate_credit_score p₂ ≤ calculate_credit_score p₁ := by
  have bounds : ∀ p : ℚ, 300 ≤ calculate_credit_score p ∧
      calculate_credit_score p ≤ 850 := by
    intro p
    unfold calculate_credit_score
    exact ⟨le_max_left _ _, max_le (by norm_num) (min_le_left _ _)⟩
  refine ⟨(bounds p₁).1, (bounds p₁).2, (bounds p₂).1, (bounds p₂).2, ?_⟩
  have hnn₁ : (0 : ℚ) ≤ 850 - p₁ * 550 := by nlinarith
  have hnn₂ : (0 : ℚ) ≤ 850 - p₂ * 550 := by nlinarith
  have hle : (850 : ℚ) - p₂ * 550 ≤ 850 - p₁ * 550 := by nlinarith
  have hfl : ⌊(850 : ℚ) - p₂ * 550⌋ ≤ ⌊(850 : ℚ) - p₁ * 550⌋ :=
    Int.floor_le_floor hle
  simp only [calculate_credit_score, pyInt, if_pos hnn₁, if_pos hnn₂]
  exact max_le_max (le_refl 300) (min_le_min (le_refl 850) hfl)

/-- Witness for `calculate_credit_score_bounds_and_antitone` at
`p₁ = 0`, `p₂ = 1`. -/
theorem calculate_credit_score_bounds_and_antitone_witness :
    (0 : ℚ) ≤ 0 ∧ (0 : ℚ) ≤ 1 ∧ (1 : ℚ) ≤ 1 ∧
      (300 ≤ calculate_credit_score 0 ∧ calculate_credit_score 0 ≤ 850 ∧
       300 ≤ calculate_credit_score 1 ∧ calculate_credit_score 1 ≤ 850 ∧
       calculate_credit_score 1 ≤ calculate_credit_score 0) :=
  ⟨le_refl 0, by norm_num, le_refl 1,
    calculate_credit_score_bounds_and_antitone 0 1 (le_refl 0) (by norm_num)
      (le_refl 1)⟩

/-- C8: the loan decision is a pure function of the bounded score with
exactly the documented thresholds: `Approved` iff `s ≥ 750`,
`Conditionally Approved` iff `650 ≤ s < 750`, `Manual Review Required` iff
`600 ≤ s < 650`, and `Declined` iff `s < 600`. -/
theorem determine_decision_thresholds (s : ℚ) :
    (determine_decision s = "Approved" ↔ 750 ≤ s) ∧
    (determine_decision s = "Conditionally Approved" ↔ 650 ≤ s ∧ s < 750) ∧
    (determine_decision s = "Manual Review Required" ↔ 600 ≤ s ∧ s < 650) ∧
    (determine_decision s = "Declined" ↔ s < 600) := by
  unfold determine_decision
  split_ifs with h750 h650 h600
  · refine ⟨by simp [h750], ?_, ?_, ?_⟩
    · simp only [show ("Approved" = "Conditionally Approved") = False by simp,
        false_iff]
      rintro ⟨-, hlt⟩; linarith
    · simp only [show ("Approved" = "Manual Review Required") = False by simp,
        false_iff]
      rintro ⟨-, hlt⟩; linarith
    · simp only [show ("Approved" = "Declined") = False by simp, false_iff]
      intro hlt; linarith
  · refine ⟨?_, ?_, ?_, ?_⟩
    · simp only [show ("Conditionally Approved" = "Approved") = False by simp,
        false_iff]
      exact h750
    · simpa using ⟨h650, not_le.mp h750⟩
    · simp only
        [show ("Conditionally Approved" = "Manual Review Required") = False
          by simp, false_iff]
      rintro ⟨-, hlt⟩; linarith
    · simp only [show ("Conditionally Approved" = "Declined") = False by simp,
        false_iff]
      intro hlt; linarith
  · refine ⟨?_, ?_, ?_, ?_⟩
    · simp only [show ("Manual Review Required" = "Approved") = False by simp,
        false_iff]
      exact h750
    · simp only
        [show ("Manual Review Required" = "Conditionally Approved") = False
          by simp, false_iff]
      rintro ⟨hge, -⟩; exact h650 hge
    · simpa using ⟨h600, not_le.mp h650⟩
    · simp only [show ("Manual Review Required" = "Declined") = False by simp,
        false_iff]
      intro hlt; linarith
  · refine ⟨?_, ?_, ?_, ?_⟩
    · simp only [show ("Declined" = "Approved") = False by simp, false_iff]
      exact h750
    · simp only [show ("Declined" = "Conditionally Approved") = False by simp,
        false_iff]
      rintro ⟨hge, -⟩; exact h650 hge
    · simp only [show ("Declined" = "Manual Review Required") = False by simp,
        false_iff]
      rintro ⟨hge, -⟩; exact h600 hge
    · simpa using not_le.mp h600

end LendSmart

namespace LendSmart

/-- Lower-casing of a string, modelling Python's `str.lower()`. Defined by
structural recursion over the character list so that it evaluates inside the
kernel. -/
def lowerStr (s : String) : String :=
  ⟨s.data.map Char.toLower⟩

/-- `startsWithStr s p` models Python's `s.startswith(p)`. -/
def startsWithStr (s p : String) : Bool :=
  p.data.isPrefixOf s.data

/-- `endsWithStr s p` models Python's `s.endswith(p)`. -/
def endsWithStr (s p : String) : Bool :=
  p.data.isSuffixOf s.data

/-- Infix test on character lists, by structural recursion. -/
def listInfix (needle : List Char) : List Char → Bool
  | [] => needle.isPrefixOf []
  | h :: t => needle.isPrefixOf (h :: t) || listInfix needle t

/-- `containsStr hay needle` models Python's `needle in hay` on strings. -/
def containsStr (hay needle : String) : Bool :=
  listInfix needle.data hay.data

/-- Fuel-indexed replacement of every non-overlapping occurrence of a
pattern, left to right. -/
def replFuel : ℕ → List Char → List Char → List Char → List Char
  | 0, _, _, hay => hay
  | _ + 1, _, _, [] => []
  | n + 1, pat, rep, h :: t =>
    if pat.isPrefixOf (h :: t) then
      rep ++ replFuel n pat rep ((h :: t).drop pat.length)
    else h :: replFuel n pat rep t

/-- `replaceStr s pat repl` models Python's `s.replace(pat, repl)`
(all occurrences). -/
def replaceStr (s pat repl : String) : String :=
  if pat.data.isEmpty then s else ⟨replFuel s.data.length pat.data repl.data s.data⟩

/-- Lookup in an association list with a default, modelling Python's
`dict.get(key, default)`. -/
def dictGet (d : List (String × ℚ)) (k : String) (default : ℚ) : ℚ :=
  match d.find? (fun p => p.1 == k) with
  | some p => p.2
  | none => default

/-- Default category weights of `AlternativeDataScoreAggregator.__init__`
(`scoring.py`, lines 815–823). -/
def aggregatorDefaultWeights : List (String × ℚ) :=
  [("digital_footprint", 0.20), ("transaction", 0.35),
   ("utility_payment", 0.25), ("education_employment", 0.20)]

/-- Embedding of `AlternativeDataScoreAggregator.aggregate_score`
(`scoring.py`, lines 892–929) on the path where `individual_scores` is
provided: accumulate `score * weight` and the weight over the given
per-category scores (weight `0.0` for names without a registered weight),
then divide, falling back to `50.0` when the accumulated weight is not
positive. Returns the pair `(aggregate, individual_scores)` as the source
does. -/
def aggregate_score (weights : List (String × ℚ))
    (individual_scores : List (String × ℚ)) : ℚ × List (String × ℚ) :=
  let acc := individual_scores.foldl
    (fun (acc : ℚ × ℚ) p =>
      (acc.1 + p.2 * dictGet weights p.1 0, acc.2 + dictGet weights p.1 0))
    (0, 0)
  (if 0 < acc.2 then acc.1 / acc.2 else 50, individual_scores)

/-- Total weight assigned by `aggregate_score` to a score map: the sum of
the registered weights of the names appearing in it. -/
def totalWeight (weights : List (String × ℚ))
    (individual_scores : List (String × ℚ)) : ℚ :=
  (individual_scores.map (fun p => dictGet weights p.1 0)).sum

/-- Weighted sum accumulated by `aggregate_score`. -/
def weightedSum (weights : List (String × ℚ))
    (individual_scores : List (String × ℚ)) : ℚ :=
  (individual_scores.map (fun p => p.2 * dictGet weights p.1 0)).sum

theorem aggregate_foldl_eq (weights scores : List (String × ℚ)) (a b : ℚ) :
    scores.foldl
      (fun (acc : ℚ × ℚ) p =>
        (acc.1 + p.2 * dictGet weights p.1 0, acc.2 + dictGet weights p.1 0))
      (a, b) =
    (a + weightedSum weights scores, b + totalWeight weights scores) := by
  induction scores generalizing a b with
  | nil => simp [weightedSum, totalWeight]
  | cons hd tl ih =>
    simp only [List.foldl_cons, ih, weightedSum, totalWeight, List.map_cons,
      List.sum_cons]
    rw [Prod.mk.injEq]
    constructor <;> ring

theorem aggregate_score_eq (weights scores : List (String × ℚ)) :
    (aggregate_score weights scores).1 =
      if 0 < totalWeight weights scores then
        weightedSum weights scores / totalWeight weights scores
      else 50 := by
  show (if 0 < _ then _ else _) = _
  rw [aggregate_foldl_eq weights scores 0 0]
  simp

/-- C3: for a map of per-category sub-scores each in `[0,100]` and a
configured weight map with non-negative weights, the aggregate is the
weighted mean `Σ(wᵢ·sᵢ) / Σ(wᵢ)` over the categories present (weight `0`
for unregistered names); when the total weight is zero the aggregate is
exactly `50`; and the aggregate always lies in `[0, 100]`. -/
theorem aggregate_score_weighted_mean (weights scores : List (String × ℚ))
    (hs : ∀ p ∈ scores, 0 ≤ p.2 ∧ p.2 ≤ 100)
    (hw : ∀ p ∈ weights, 0 ≤ p.2) :
    ((aggregate_score weights scores).1 =
        if totalWeight weights scores = 0 then 50
        else weightedSum weights scores / totalWeight weights scores) ∧
      (totalWeight weights scores = 0 →
        (aggregate_score weights scores).1 = 50) ∧
      0 ≤ (aggregate_score weights scores).1 ∧
      (aggregate_score weights scores).1 ≤ 100 := by
  have hget : ∀ k, 0 ≤ dictGet weights k 0 := by
    intro k
    unfold dictGet
    cases hfind : weights.find? (fun p => p.1 == k) with
    | none => exact le_refl 0
    | some p => exact hw p (List.mem_of_find?_eq_some hfind)
  have htw : 0 ≤ totalWeight weights scores := by
    apply List.sum_nonneg
    intro x hx
    obtain ⟨p, _, rfl⟩ := List.mem_map.mp hx
    exact hget p.1
  have hws0 : 0 ≤ weightedSum weights scores := by
    apply List.sum_nonneg
    intro x hx
    obtain ⟨p, hp, rfl⟩ := List.mem_map.mp hx
    exact mul_nonneg (hs p hp).1 (hget p.1)
  have hws100 : weightedSum weights scores ≤ 100 * totalWeight weights scores := by
    unfold weightedSum totalWeight
    rw [← List.sum_map_mul_left]
    apply List.sum_le_sum
    intro p hp
    have := (hs p hp).2
    have := (hs p hp).1
    have := hget p.1
    nlinarith
  have hiff : (0 < totalWeight weights scores) ↔
      ¬ totalWeight weights scores = 0 := by
    constructor
    · intro h he; rw [he] at h; exact lt_irrefl 0 h
    · intro h; exact lt_of_le_of_ne htw (fun he => h he.symm)
  refine ⟨?_, ?_, ?_, ?_⟩
  · rw [aggregate_score_eq]
    by_cases h : totalWeight weights scores = 0
    · simp [h]
    · rw [if_pos (hiff.mpr h), if_neg h]
  · intro h
    rw [aggregate_score_eq, if_neg (by rw [h]; exact lt_irrefl 0)]
  · rw [aggregate_score_eq]
    by_cases h : 0 < totalWeight weights scores
    · rw [if_pos h]
      exact div_nonneg hws0 htw
    · rw [if_neg h]; norm_num
  · rw [aggregate_score_eq]
    by_cases h : 0 < totalWeight weights scores
    · rw [if_pos h]
      rw [div_le_iff h]
      linarith [hws100]
    · rw [if_neg h]; norm_num

/-- Witness for `aggregate_score_weighted_mean` with the default weights and
the concrete sub-scores 80/60/40/100. -/
theorem aggregate_score_weighted_mean_witness :
    let sc : List (String × ℚ) :=
      [("digital_footprint", 80), ("transaction", 60),
       ("utility_payment", 40), ("education_employment", 100)]
    (∀ p ∈ sc, 0 ≤ p.2 ∧ p.2 ≤ 100) ∧
      (∀ p ∈ aggregatorDefaultWeights, 0 ≤ p.2) ∧
      ((aggregate_score aggregatorDefaultWeights sc).1 =
          if totalWeight aggregatorDefaultWeights sc = 0 then 50
          else weightedSum aggregatorDefaultWeights sc /
            totalWeight aggregatorDefaultWeights sc) ∧
      (totalWeight aggregatorDefaultWeights sc = 0 →
        (aggregate_score aggregatorDefaultWeights sc).1 = 50) ∧
      0 ≤ (aggregate_score aggregatorDefaultWeights sc).1 ∧
      (aggregate_score aggregatorDefaultWeights sc).1 ≤ 100 :=
  ⟨by intro p hp; fin_cases hp <;> norm_num,
    by intro p hp; fin_cases hp <;> norm_num [aggregatorDefaultWeights],
    aggregate_score_weighted_mean aggregatorDefaultWeights _
      (by intro p hp; fin_cases hp <;> norm_num)
      (by intro p hp; fin_cases hp <;> norm_num [aggregatorDefaultWeights])⟩

end LendSmart

namespace LendSmart

/-- Column value types, mirroring the pandas dtypes the source inspects
(`int64`, `float64`, and `object` for categorical data). -/
inductive Dtype where
  | int64
  | float64
  | obj
deriving DecidableEq, Repr

namespace Scoring

/-- A column of an alternative-data frame: a dtype together with one
optional rational per row; `none` models a missing value (`NaN`).
Categorical (`obj`) values are represented numerically as well — the
scorers under verification never consume a categorical value. -/
structure SCol where
  dtype : Dtype
  vals : List (Option ℚ)
deriving DecidableEq, Repr

/-- A data frame for the alternative-data scorers: a row count and an
ordered association list of named columns, mirroring `pandas.DataFrame`. -/
structure SFrame where
  nrows : ℕ
  cols : List (String × SCol)
deriving DecidableEq, Repr

/-- The empty frame `pd.DataFrame()`. -/
def SFrame.emptyFrame : SFrame := ⟨0, []⟩

/-- `df.empty`: true when either axis has length zero. -/
def SFrame.isEmpty (f : SFrame) : Bool :=
  f.cols.isEmpty || f.nrows == 0

/-- First column with the given name, if any. -/
def SFrame.get? (f : SFrame) (n : String) : Option SCol :=
  (f.cols.find? (fun p => p.1 == n)).map (fun p => p.2)

/-- `name in df.columns`. -/
def SFrame.hasCol (f : SFrame) (n : String) : Bool :=
  (f.get? n).isSome

/-- `df[name].iloc[0]`: the first row's value of a column. The scorers only
evaluate it on non-empty frames; on a missing column or empty column it
yields `none` (`NaN`). -/
def SFrame.firstVal (f : SFrame) (n : String) : Option ℚ :=
  match f.get? n with
  | some c => c.vals.headD none
  | none => none

/-- `df[name] = col`: replace the first column with that name in place, or
append a new one at the end, as pandas column assignment does. -/
def setPairsS : List (String × SCol) → String → SCol → List (String × SCol)
  | [], n, c => [(n, c)]
  | (m, d) :: rest, n, c =>
    if m == n then (n, c) :: rest else (m, d) :: setPairsS rest n c

/-- Frame-level column assignment. -/
def SFrame.set (f : SFrame) (n : String) (c : SCol) : SFrame :=
  ⟨f.nrows, setPairsS f.cols n c⟩

/-- Apply a transformation to a named column when it is present, else leave
the frame unchanged (the `if col in df.columns:` pattern). -/
def SFrame.modifyCol (f : SFrame) (n : String) (g : SCol → SCol) : SFrame :=
  match f.get? n with
  | some c => f.set n (g c)
  | none => f

/-- Elementwise map over a column's values; a missing value (`NaN`)
propagates, as in pandas arithmetic. -/
def mapColVals (g : ℚ → ℚ) (c : SCol) : SCol :=
  ⟨c.dtype, c.vals.map (fun o => o.map g)⟩

/-- `np.clip(x, lo, hi)` on a scalar. -/
def pyClip (x lo hi : ℚ) : ℚ :=
  max lo (min hi x)

/-- NaN-propagating multiplication of an optional value by a weight. -/
def omul (o : Option ℚ) (w : ℚ) : Option ℚ :=
  o.map (fun v => v * w)

/-- NaN-propagating addition. -/
def oadd (a b : Option ℚ) : Option ℚ :=
  match a, b with
  | some x, some y => some (x + y)
  | _, _ => none

/-- Insertion into a sorted list of rationals. -/
def insertSorted (x : ℚ) : List ℚ → List ℚ
  | [] => [x]
  | y :: ys => if x ≤ y then x :: y :: ys else y :: insertSorted x ys

/-- Insertion sort, used to model the sorting inside `Series.median`. -/
def insSort (l : List ℚ) : List ℚ :=
  l.foldr insertSorted []

/-- `Series.median()`: the middle of the sorted present values, the mean of
the two middles for an even count, `NaN` when no value is present. -/
def medianOpt (vals : List (Option ℚ)) : Option ℚ :=
  let xs := insSort (vals.filterMap id)
  if xs.length = 0 then none
  else if xs.length % 2 = 1 then xs.get? (xs.length / 2)
  else
    match xs.get? (xs.length / 2 - 1), xs.get? (xs.length / 2) with
    | some a, some b => some ((a + b) / 2)
    | _, _ => none

/-- `Series.fillna(v)` where `v` itself may be `NaN` (then nothing is
filled, as in pandas). -/
def fillWith (fill : Option ℚ) (c : SCol) : SCol :=
  ⟨c.dtype, c.vals.map (fun o => o.orElse (fun _ => fill))⟩

/-- The missing-value handling loop shared by the transaction, utility and
education/employment scorers (`scoring.py`, e.g. lines 277–283): `object`
columns are filled with the placeholder string (value-irrelevant here),
numeric columns with their median when the frame has more than one row and
with `0` otherwise. -/
def fillMedianOrZero (nrows : ℕ) (c : SCol) : SCol :=
  if c.dtype = Dtype.obj then c
  else fillWith (if 1 < nrows then medianOpt c.vals else some 0) c

/-- The digital-footprint variant (`scoring.py`, lines 141–146): numeric
columns are filled with `0`. -/
def fillZero (c : SCol) : SCol :=
  if c.dtype = Dtype.obj then c else fillWith (some 0) c

/-- Select the columns carrying a source prefix and strip the prefix from
their names; `pd.DataFrame()` when none is present (`scoring.py`, the
shared shape of every `preprocess_features`). -/
def selectPrefixed (pfx : String) (data : SFrame) : SFrame :=
  let sel := data.cols.filter (fun p => startsWithStr p.1 pfx)
  if sel.isEmpty then SFrame.emptyFrame
  else ⟨data.nrows, sel.map (fun p => (replaceStr p.1 pfx "", p.2))⟩

/-- Fill every column of a frame. -/
def fillAllCols (fill : ℕ → SCol → SCol) (f : SFrame) : SFrame :=
  ⟨f.nrows, f.cols.map (fun p => (p.1, fill f.nrows p.2))⟩

end Scoring

end LendSmart

namespace LendSmart

namespace Scoring

/-- Default feature weights of `DigitalFootprintScorer.__init__`
(`scoring.py`, lines 101–115). -/
def digitalDefaultWeights : List (String × ℚ) :=
  [("email_domain_age_days", 0.10), ("email_account_age_days", 0.15),
   ("device_age_months", 0.05), ("social_media_accounts", 0.10),
   ("social_media_followers", 0.05), ("digital_subscription_count", 0.10),
   ("has_professional_email", 0.15), ("device_price_category_score", 0.10),
   ("typical_online_hours_score", 0.05), ("typical_geolocation_stability", 0.15)]

/-- Default feature weights of `TransactionDataScorer.__init__`
(`scoring.py`, lines 240–252). -/
def transactionDefaultWeights : List (String × ℚ) :=
  [("income_stability", 0.20), ("expense_to_income_ratio", 0.15),
   ("debt_service_ratio", 0.15), ("savings_rate", 0.10),
   ("late_payment_frequency", 0.10), ("overdraft_frequency", 0.10),
   ("cash_buffer_months", 0.10), ("recurring_bill_payment_consistency", 0.10)]

/-- Default feature weights of `UtilityPaymentScorer.__init__`
(`scoring.py`, lines 451–461). -/
def utilityDefaultWeights : List (String × ℚ) :=
  [("overall_utility_payment_consistency", 0.30),
   ("utility_missed_payments_count", 0.20),
   ("avg_days_late_when_late", 0.15), ("utility_payment_trend_score", 0.15),
   ("utility_history_length_months", 0.10), ("utility_accounts_count", 0.10)]

/-- Default feature weights of `EducationEmploymentScorer.__init__`
(`scoring.py`, lines 606–618). -/
def eduEmpDefaultWeights : List (String × ℚ) :=
  [("education_level_score", 0.15), ("employment_years", 0.20),
   ("job_stability_score", 0.20), ("industry_stability", 0.10),
   ("job_level_score", 0.15), ("company_size_score", 0.05),
   ("career_growth_trajectory", 0.10), ("skill_demand_score", 0.05)]

/-- The fixed-weight scoring block shared verbatim by the scorers
(`scoring.py`, e.g. lines 205–223): accumulate `value * weight` and the
weight over the extracted features (looking the weight up again in the
weight map as the source does), normalize by the accumulated weight when it
is positive (`0.5` otherwise), and scale to `0–100`. A `NaN` feature value
(`none`) propagates through the sum as it does through Python floats. -/
def weightedNormalizedScore (weights : List (String × ℚ))
    (feats : List (String × Option ℚ)) : Option ℚ :=
  let acc := feats.foldl
    (fun (a : Option ℚ × ℚ) p =>
      (oadd a.1 (omul p.2 (dictGet weights p.1 0)),
       a.2 + dictGet weights p.1 0))
    (some 0, 0)
  let normalized := if 0 < acc.2 then acc.1.map (fun v => v / acc.2)
    else some (1 / 2)
  normalized.map (fun v => v * 100)

/-- State of a `DigitalFootprintScorer`: its weight map. (The `MinMaxScaler`
it constructs is never consulted by `score`.) -/
structure DigitalScorerState where
  weights : List (String × ℚ)
deriving Repr

/-- Embedding of `DigitalFootprintScorer.preprocess_features`
(`scoring.py`, lines 119–154): select the `digital_footprint_`-prefixed
columns (empty frame when none), strip the prefix, fill missing numeric
values with `0`, and truncate `has_professional_email` to an integer. -/
def digitalPreprocess (data : SFrame) : SFrame :=
  let df := selectPrefixed "digital_footprint_" data
  if df.cols.isEmpty then df
  else
    let df := fillAllCols (fun _ c => fillZero c) df
    df.modifyCol "has_professional_email"
      (mapColVals (fun v => ((pyInt v : ℤ) : ℚ)))

/-- Embedding of `DigitalFootprintScorer.score` (`scoring.py`,
lines 156–223). `log1p` is the interpretation of `np.log1p`. -/
def digitalScore (log1p : ℚ → ℚ) (st : DigitalScorerState)
    (data : SFrame) : Option ℚ :=
  let df := digitalPreprocess data
  if df.isEmpty then some 50
  else
    let feats : List (String × Option ℚ) := st.weights.map (fun p =>
      if df.hasCol p.1 then
        let value := df.firstVal p.1
        let value :=
          if p.1 == "email_domain_age_days" then
            value.map (fun v => min v 3650 / 3650)
          else if p.1 == "email_account_age_days" then
            value.map (fun v => min v 1825 / 1825)
          else if p.1 == "device_age_months" then
            value.map (fun v => 1 - min v 60 / 60)
          else if p.1 == "social_media_accounts" then
            value.map (fun v => min v 5 / 5)
          else if p.1 == "social_media_followers" then
            value.map (fun v => log1p (min v 5000) / log1p 5000)
          else if p.1 == "digital_subscription_count" then
            value.map (fun v => min v 10 / 10)
          else value
        (p.1, value)
      else (p.1, some 0))
    weightedNormalizedScore st.weights feats

/-- State of a `TransactionDataScorer`: its weight map and the optional
trained regressor. The regressor (a `StandardScaler` followed by a
`RandomForestRegressor`) is opaque to this development and is modelled as
an arbitrary function from the preprocessed frame to a prediction. -/
structure TransactionScorerState where
  weights : List (String × ℚ)
  model : Option (SFrame → ℚ)

/-- Embedding of `TransactionDataScorer.preprocess_features`
(`scoring.py`, lines 254–302): select the `transaction_`-prefixed columns
(empty frame when none), strip the prefix, fill missing numeric values with
the column median (0 when at most one row), then invert
`late_payment_frequency` and `overdraft_frequency`, and clip and invert
`expense_to_income_ratio`. -/
def transactionPreprocess (data : SFrame) : SFrame :=
  let tx := selectPrefixed "transaction_" data
  if tx.cols.isEmpty then tx
  else
    let tx := fillAllCols fillMedianOrZero tx
    let tx := tx.modifyCol "late_payment_frequency" (mapColVals (fun v => 1 - v))
    let tx := tx.modifyCol "overdraft_frequency" (mapColVals (fun v => 1 - v))
    let tx := tx.modifyCol "expense_to_income_ratio"
      (mapColVals (fun v => pyClip v 0 1))
    tx.modifyCol "expense_to_income_ratio" (mapColVals (fun v => 1 - v))

/-- Embedding of `TransactionDataScorer.score` (`scoring.py`,
lines 335–392): neutral `50.0` on an empty preprocessed frame; otherwise
the trained regressor's clipped prediction scaled to `0–100` when a model
is present, else the fixed-weight scoring block. -/
def transactionScore (st : TransactionScorerState) (data : SFrame) : Option ℚ :=
  let tx := transactionPreprocess data
  if tx.isEmpty then some 50
  else
    match st.model with
    | some m => some (pyClip (m tx) 0 1 * 100)
    | none =>
      let feats : List (String × Option ℚ) := st.weights.map (fun p =>
        if tx.hasCol p.1 then (p.1, tx.firstVal p.1) else (p.1, some 0))
      weightedNormalizedScore st.weights feats

/-- State of a `UtilityPaymentScorer`: its weight map. -/
structure UtilityScorerState where
  weights : List (String × ℚ)
deriving Repr

/-- Embedding of `UtilityPaymentScorer.preprocess_features`
(`scoring.py`, lines 463–525): select and strip `utility_payment_`
columns, fill with median-or-zero, then derive `missed_payment_rate`
(normalised by the first row's history length when positive, by 24 months
otherwise), `days_late_score`, and `history_length_score`. -/
def utilityPreprocess (data : SFrame) : SFrame :=
  let up := selectPrefixed "utility_payment_" data
  if up.cols.isEmpty then up
  else
    let up := fillAllCols fillMedianOrZero up
    let up :=
      if up.hasCol "utility_missed_payments_count" then
        let missedRate : Option ℚ :=
          if up.hasCol "utility_history_length_months" &&
              (match up.firstVal "utility_history_length_months" with
               | some v => decide (0 < v)
               | none => false) then
            match up.firstVal "utility_missed_payments_count",
                up.firstVal "utility_history_length_months" with
            | some c, some h => some (c / h)
            | _, _ => none
          else
            (up.firstVal "utility_missed_payments_count").map (fun c => c / 24)
        up.set "missed_payment_rate"
          ⟨Dtype.float64,
           List.replicate up.nrows (missedRate.map (fun r => 1 - pyClip r 0 1))⟩
      else up
    let up :=
      if up.hasCol "avg_days_late_when_late" then
        match up.get? "avg_days_late_when_late" with
        | some c =>
          up.set "days_late_score" (mapColVals (fun v => 1 - pyClip (v / 30) 0 1) c)
        | none => up
      else up
    if up.hasCol "utility_history_length_months" then
      match up.get? "utility_history_length_months" with
      | some c =>
        up.set "history_length_score" (mapColVals (fun v => pyClip (v / 36) 0 1) c)
      | none => up
    else up

/-- Embedding of `UtilityPaymentScorer.score` (`scoring.py`,
lines 527–594), with the fall-back lookups of the derived columns. -/
def utilityScore (st : UtilityScorerState) (data : SFrame) : Option ℚ :=
  let up := utilityPreprocess data
  if up.isEmpty then some 50
  else
    let feats : List (String × Option ℚ) := st.weights.map (fun p =>
      if up.hasCol p.1 then (p.1, up.firstVal p.1)
      else if p.1 == "utility_missed_payments_count" &&
          up.hasCol "missed_payment_rate" then
        (p.1, up.firstVal "missed_payment_rate")
      else if p.1 == "avg_days_late_when_late" &&
          up.hasCol "days_late_score" then
        (p.1, up.firstVal "days_late_score")
      else if p.1 == "utility_history_length_months" &&
          up.hasCol "history_length_score" then
        (p.1, up.firstVal "history_length_score")
      else (p.1, some 0))
    weightedNormalizedScore st.weights feats

/-- State of an `EducationEmploymentScorer`: its weight map and the
optional trained `Ridge` regressor, modelled as an opaque function. -/
structure EduEmpScorerState where
  weights : List (String × ℚ)
  model : Option (SFrame → ℚ)

/-- Embedding of `EducationEmploymentScorer.preprocess_features`
(`scoring.py`, lines 621–661). -/
def eduEmpPreprocess (data : SFrame) : SFrame :=
  let ee := selectPrefixed "education_employment_" data
  if ee.cols.isEmpty then ee
  else
    let ee := fillAllCols fillMedianOrZero ee
    if ee.hasCol "employment_years" then
      match ee.get? "employment_years" with
      | some c =>
        ee.set "employment_years_score" (mapColVals (fun v => pyClip (v / 20) 0 1) c)
      | none => ee
    else ee

/-- Embedding of `EducationEmploymentScorer.score` (`scoring.py`,
lines 688–755). -/
def eduEmpScore (st : EduEmpScorerState) (data : SFrame) : Option ℚ :=
  let ee := eduEmpPreprocess data
  if ee.isEmpty then some 50
  else
    match st.model with
    | some m => some (pyClip (m ee) 0 1 * 100)
    | none =>
      let feats : List (String × Option ℚ) := st.weights.map (fun p =>
        if ee.hasCol p.1 then (p.1, ee.firstVal p.1)
        else if p.1 == "employment_years" &&
            ee.hasCol "employment_years_score" then
          (p.1, ee.firstVal "employment_years_score")
        else (p.1, some 0))
      weightedNormalizedScore st.weights feats

/-- State of an `AlternativeDataScoreAggregator` with its four default
scorers registered in insertion order (`scoring.py`, lines 828–844). -/
structure AggregatorState where
  weights : List (String × ℚ)
  digital : DigitalScorerState
  transaction : TransactionScorerState
  utility : UtilityScorerState
  eduEmp : EduEmpScorerState

/-- The aggregator as freshly constructed with an empty configuration. -/
def defaultAggregatorState : AggregatorState :=
  { weights := aggregatorDefaultWeights,
    digital := ⟨digitalDefaultWeights⟩,
    transaction := ⟨transactionDefaultWeights, none⟩,
    utility := ⟨utilityDefaultWeights⟩,
    eduEmp := ⟨eduEmpDefaultWeights, none⟩ }

/-- Embedding of `AlternativeDataScoreAggregator.calculate_scores`
(`scoring.py`, lines 869–890): query each registered scorer in insertion
order. (The source's per-scorer `try/except` fallback to `50.0` has no
effect here: every embedded scorer is a total function.) -/
def calculate_scores (log1p : ℚ → ℚ) (ag : AggregatorState)
    (data : SFrame) : List (String × Option ℚ) :=
  [("digital_footprint", digitalScore log1p ag.digital data),
   ("transaction", transactionScore ag.transaction data),
   ("utility_payment", utilityScore ag.utility data),
   ("education_employment", eduEmpScore ag.eduEmp data)]

end Scoring

end LendSmart

namespace LendSmart

theorem filter_startsWith_nil {pfx : String} {cols : List (String × Scoring.SCol)}
    (h : ∀ p ∈ cols, startsWithStr p.1 pfx = false) :
    cols.filter (fun p => startsWithStr p.1 pfx) = [] := by
  rw [List.filter_eq_nil]
  intro a ha
  simp [h a ha]

theorem selectPrefixed_empty {pfx : String} {data : Scoring.SFrame}
    (h : ∀ p ∈ data.cols, startsWithStr p.1 pfx = false) :
    Scoring.selectPrefixed pfx data = Scoring.SFrame.emptyFrame := by
  unfold Scoring.selectPrefixed
  rw [filter_startsWith_nil h]
  rfl

/-- C4: when a category's source columns are entirely absent from the input
frame, that category's scorer returns exactly the neutral sub-score `50.0`
(shown for `TransactionDataScorer.score` and `DigitalFootprintScorer.score`,
which never raise — they are total functions here), and the aggregator's
per-category score map is still computed for all four registered
categories, carrying `50.0` for the transaction category. -/
theorem scorers_neutral_on_absent_source (log1p : ℚ → ℚ)
    (ag : Scoring.AggregatorState) (data : Scoring.SFrame)
    (htx : ∀ p ∈ data.cols, startsWithStr p.1 "transaction_" = false)
    (hdf : ∀ p ∈ data.cols, startsWithStr p.1 "digital_footprint_" = false) :
    Scoring.transactionScore ag.transaction data = some 50 ∧
    Scoring.digitalScore log1p ag.digital data = some 50 ∧
    (Scoring.calculate_scores log1p ag data).map Prod.fst =
      ["digital_footprint", "transaction", "utility_payment",
       "education_employment"] ∧
    List.lookup "transaction" (Scoring.calculate_scores log1p ag data) =
      some (some 50) := by
  have htx50 : Scoring.transactionScore ag.transaction data = some 50 := by
    unfold Scoring.transactionScore Scoring.transactionPreprocess
    rw [selectPrefixed_empty htx]
    rfl
  have hdf50 : Scoring.digitalScore log1p ag.digital data = some 50 := by
    unfold Scoring.digitalScore Scoring.digitalPreprocess
    rw [selectPrefixed_empty hdf]
    rfl
  refine ⟨htx50, hdf50, rfl, ?_⟩
  unfold Scoring.calculate_scores
  rw [htx50]
  rfl

/-- Witness frame for `scorers_neutral_on_absent_source`: one row of
utility-payment data, no transaction or digital-footprint columns. -/
def c4WitnessFrame : Scoring.SFrame :=
  ⟨1, [("utility_payment_utility_accounts_count",
        ⟨Dtype.float64, [some 2]⟩)]⟩

/-- Witness for `scorers_neutral_on_absent_source` on `c4WitnessFrame` with
the default aggregator. -/
theorem scorers_neutral_on_absent_source_witness :
    (∀ p ∈ c4WitnessFrame.cols, startsWithStr p.1 "transaction_" = false) ∧
    (∀ p ∈ c4WitnessFrame.cols,
      startsWithStr p.1 "digital_footprint_" = false) ∧
    (Scoring.transactionScore Scoring.defaultAggregatorState.transaction
        c4WitnessFrame = some 50 ∧
      Scoring.digitalScore id Scoring.defaultAggregatorState.digital
        c4WitnessFrame = some 50 ∧
      (Scoring.calculate_scores id Scoring.defaultAggregatorState
          c4WitnessFrame).map Prod.fst =
        ["digital_footprint", "transaction", "utility_payment",
         "education_employment"] ∧
      List.lookup "transaction"
          (Scoring.calculate_scores id Scoring.defaultAggregatorState
            c4WitnessFrame) =
        some (some 50)) :=
  ⟨by decide, by decide,
    scorers_neutral_on_absent_source id Scoring.defaultAggregatorState
      c4WitnessFrame (by decide) (by decide)⟩

end LendSmart

namespace LendSmart

namespace Credit

/-- A column of the credit-scoring model's frame: dtype and one rational
per row. Missing values are not modelled here — the feature-engineering
claims concern complete numeric batches. -/
structure Col where
  dtype : Dtype
  vals : List ℚ
deriving DecidableEq, Repr

/-- A data frame for `CreditScoringModel`: a row count and an ordered
association list of named columns, mirroring `pandas.DataFrame`. -/
structure Frame where
  nrows : ℕ
  cols : List (String × Col)
deriving DecidableEq, Repr

/-- Column names in frame order (`df.columns`). -/
def Frame.names (f : Frame) : List String :=
  f.cols.map Prod.fst

/-- First binding with the given name in a column association list. -/
def getPairs : List (String × Col) → String → Option Col
  | [], _ => none
  | (m, d) :: rest, n => if m == n then some d else getPairs rest n

/-- First column with the given name (`df[name]`), if present. -/
def Frame.get? (f : Frame) (n : String) : Option Col :=
  getPairs f.cols n

/-- `name in df.columns`. -/
def Frame.hasCol (f : Frame) (n : String) : Bool :=
  (f.get? n).isSome

/-- `df[name] = col`: in-place replacement of an existing column, append
at the end otherwise, as pandas assignment does. -/
def setPairs : List (String × Col) → String → Col → List (String × Col)
  | [], n, c => [(n, c)]
  | (m, d) :: rest, n, c =>
    if m == n then (n, c) :: rest else (m, d) :: setPairs rest n c

/-- Frame-level column assignment. -/
def Frame.set (f : Frame) (n : String) (c : Col) : Frame :=
  ⟨f.nrows, setPairs f.cols n c⟩

/-- `dtype in ["int64", "float64"]`. -/
def numericDtype (d : Dtype) : Bool :=
  d == Dtype.int64 || d == Dtype.float64

/-- The feature taxonomy held by a `CreditScoringModel`
(`traditional_features`, `alternative_features`, `categorical_features`,
`numeric_features`). -/
structure Taxonomy where
  traditional : List String
  alternative : List String
  categorical : List String
  numeric : List String
deriving DecidableEq, Repr

/-- The taxonomy of a freshly constructed model
(`CreditScoringModel.__init__`, lines 101–104): all four lists empty. -/
def freshTaxonomy : Taxonomy :=
  ⟨[], [], [], []⟩

/-- The `traditional_patterns` list of `_identify_feature_types`
(`credit_scoring_model.py`, lines 115–129). -/
def traditionalPatterns : List String :=
  ["credit_score", "income", "debt", "loan_amount", "loan_term",
   "interest_rate", "payment_history", "utilization", "delinquency",
   "public_record", "inquiry", "employment", "housing"]

/-- The `alternative_patterns` list (`credit_scoring_model.py`,
lines 130–141). -/
def alternativePatterns : List String :=
  ["digital_footprint", "transaction", "utility_payment",
   "education_employment", "social_media", "device", "behavioral",
   "psychometric", "geolocation", "alternative"]

/-- Whether a lower-cased column name matches any traditional pattern. -/
def tradMatch (c : String) : Bool :=
  traditionalPatterns.any (fun p => containsStr (lowerStr c) p)

/-- Whether a lower-cased column name matches any alternative pattern. -/
def altMatch (c : String) : Bool :=
  alternativePatterns.any (fun p => containsStr (lowerStr c) p)

/-- Embedding of `CreditScoringModel._identify_feature_types`
(`credit_scoring_model.py`, lines 108–164): each column goes to
traditional when a traditional pattern matches its lower-cased name, else
to alternative when an alternative pattern matches, else to traditional;
categorical/numeric are read off the dtypes. -/
def identify_feature_types (X : Frame) : Taxonomy :=
  { traditional := X.names.filter (fun c => tradMatch c || !(altMatch c)),
    alternative := X.names.filter (fun c => !(tradMatch c) && altMatch c),
    categorical := (X.cols.filter (fun p => p.2.dtype == Dtype.obj)).map Prod.fst,
    numeric := (X.cols.filter (fun p => numericDtype p.2.dtype)).map Prod.fst }

/-- Name of an interaction column, `f"interaction_{trad_feat}_{alt_feat}"`. -/
def interName (t a : String) : String :=
  "interaction_" ++ t ++ "_" ++ a

/-- Name of a ratio column, `f"ratio_{trad_feat}_to_{alt_feat}"`. -/
def ratioName (t a : String) : String :=
  "ratio_" ++ t ++ "_to_" ++ a

/-- Names of the aggregated alternative-score columns
(`credit_scoring_model.py`, lines 393–405). -/
def aggColNames : List String :=
  ["alt_data_score_mean", "alt_data_score_min", "alt_data_score_max",
   "alt_data_score_range"]

/-- Result dtype of a pandas elementwise product. -/
def mulDtype (a b : Dtype) : Dtype :=
  if a == Dtype.int64 && b == Dtype.int64 then Dtype.int64 else Dtype.float64

/-- The safe-ratio write (`credit_scoring_model.py`, lines 370–374): when
the (re-read) alternative column has no zero anywhere, write the ratio
column from the current frame's columns. -/
def ratioStep (t a : String) (f1 : Frame) : Frame :=
  match f1.get? a, f1.get? t with
  | some ca1, some ct1 =>
    if ca1.vals.all (fun v => decide (v ≠ 0)) then
      f1.set (ratioName t a)
        ⟨Dtype.float64, List.zipWith (· / ·) ct1.vals ca1.vals⟩
    else f1
  | _, _ => f1

/-- One inner-loop iteration of the interaction/ratio block
(`credit_scoring_model.py`, lines 363–374): guard on the alternative
column's presence and numeric dtype, write the interaction column, then run
the safe-ratio write. -/
def interStep (t a : String) (f : Frame) : Frame :=
  match f.get? a with
  | some ca =>
    if numericDtype ca.dtype then
      match f.get? t with
      | some ct =>
        ratioStep t a (f.set (interName t a)
          ⟨mulDtype ct.dtype ca.dtype, List.zipWith (· * ·) ct.vals ca.vals⟩)
      | none => f
    else f
  | none => f

/-- One outer-loop iteration (`credit_scoring_model.py`, lines 359–362):
guard on the traditional column's presence and numeric dtype, then run the
inner loop over the alternative subset. -/
def interOuterStep (alt5 : List String) (f : Frame) (t : String) : Frame :=
  match f.get? t with
  | some ct =>
    if numericDtype ct.dtype then alt5.foldl (fun f a => interStep t a f) f
    else f
  | none => f

/-- The interaction/ratio block (`credit_scoring_model.py`,
lines 347–374): only runs when both taxonomy lists are non-empty, over the
first five entries of each. -/
def interactionPhase (tax : Taxonomy) (X : Frame) : Frame :=
  if !tax.traditional.isEmpty && !tax.alternative.isEmpty then
    let trad5 := tax.traditional.take 5
    let alt5 := tax.alternative.take 5
    trad5.foldl (interOuterStep alt5) X
  else X

/-- The squared-feature block (`credit_scoring_model.py`, lines 376–383):
the first five frame columns that are in `numeric_features` and contain
`"score"` get a `_squared` companion. -/
def squaredStep (f : Frame) (c : String) : Frame :=
  match f.get? c with
  | some col =>
    f.set (c ++ "_squared") ⟨col.dtype, col.vals.map (fun v => v ^ 2)⟩
  | none => f

/-- The selection filter of the squared block: numeric features whose
lower-cased name contains `"score"`. -/
def importantPred (tax : Taxonomy) (c : String) : Bool :=
  tax.numeric.contains c && containsStr (lowerStr c) "score"

/-- The squared block's fold over the first five matching frame columns. -/
def squaredPhase (tax : Taxonomy) (f : Frame) : Frame :=
  let important := (f.names.filter (importantPred tax)).take 5
  important.foldl squaredStep f

/-- The `alt_scores` list comprehension (`credit_scoring_model.py`,
lines 386–391): alternative features containing `"score"`, filtered to
numeric dtype; looking up a listed column that is absent from the frame is
Python's `KeyError`. -/
def altScoreCols (f : Frame) : List String → Except String (List String)
  | [] => .ok []
  | c :: rest =>
    if containsStr (lowerStr c) "score" then
      match f.get? c with
      | none => .error ("KeyError: " ++ c)
      | some col =>
        match altScoreCols f rest with
        | .error e => .error e
        | .ok r => .ok (if numericDtype col.dtype then c :: r else r)
    else altScoreCols f rest

/-- Values of the selected columns at one row index. -/
def colsAt (cols : List Col) (i : ℕ) : List ℚ :=
  cols.filterMap (fun c => c.vals.get? i)

/-- Row-wise aggregation over selected columns (`axis=1`). -/
def rowwise (g : List ℚ → ℚ) (n : ℕ) (cols : List Col) : List ℚ :=
  (List.range n).map (fun i => g (colsAt cols i))

/-- Mean of a list of rationals (`0` on the empty list, which the source
never hits on well-formed frames). -/
def qmean (xs : List ℚ) : ℚ :=
  xs.sum / xs.length

/-- Minimum of a list of rationals. -/
def qminL (xs : List ℚ) : ℚ :=
  match xs with
  | [] => 0
  | h :: t => t.foldl min h

/-- Maximum of a list of rationals. -/
def qmaxL (xs : List ℚ) : ℚ :=
  match xs with
  | [] => 0
  | h :: t => t.foldl max h

/-- The aggregated alternative-score block (`credit_scoring_model.py`,
lines 385–405): when more than one alternative feature exists and some
carry `"score"`, add row-wise mean/min/max columns and a range column
computed from the just-written max and min columns. -/
def aggPhase (tax : Taxonomy) (f : Frame) : Except String Frame :=
  if 1 < tax.alternative.length then
    match altScoreCols f tax.alternative with
    | .error e => .error e
    | .ok altScores =>
      if altScores.isEmpty then .ok f
      else
        let f1 := f.set "alt_data_score_mean"
          ⟨Dtype.float64,
           rowwise qmean f.nrows (altScores.filterMap (fun c => f.get? c))⟩
        let f2 := f1.set "alt_data_score_min"
          ⟨Dtype.float64,
           rowwise qminL f1.nrows (altScores.filterMap (fun c => f1.get? c))⟩
        let f3 := f2.set "alt_data_score_max"
          ⟨Dtype.float64,
           rowwise qmaxL f2.nrows (altScores.filterMap (fun c => f2.get? c))⟩
        match f3.get? "alt_data_score_max", f3.get? "alt_data_score_min" with
        | some cmax, some cmin =>
          .ok (f3.set "alt_data_score_range"
            ⟨Dtype.float64, List.zipWith (· - ·) cmax.vals cmin.vals⟩)
        | _, _ => .ok f3
  else .ok f

/-- `abs(Series.skew()) > 1.0` decided exactly over `ℚ`: with central
moments `m₂`, `m₃`, pandas' adjusted Fisher–Pearson skewness
`G₁ = √(n(n-1))/(n-2) · m₃/m₂^{3/2}` satisfies `|G₁| > 1` iff
`n(n-1)·m₃² > (n-2)²·m₂³`; it is `NaN` (hence not `> 1`) for fewer than
three rows or zero variance. -/
def skewGtOne (vals : List ℚ) : Bool :=
  let n := vals.length
  if n < 3 then false
  else
    let μ := vals.sum / (n : ℚ)
    let m2 := (vals.map (fun x => (x - μ) ^ 2)).sum / (n : ℚ)
    let m3 := (vals.map (fun x => (x - μ) ^ 3)).sum / (n : ℚ)
    if m2 == 0 then false
    else decide ((n : ℚ) * ((n : ℚ) - 1) * m3 ^ 2 > ((n : ℚ) - 2) ^ 2 * m2 ^ 3)

/-- The skew/log block (`credit_scoring_model.py`, lines 407–418): collect
the numeric features present in the frame with absolute skewness above 1,
then add a `_log` column — `np.log` for strictly positive columns,
`np.log1p` for non-negative ones, nothing otherwise. `log`/`log1p` are the
interpretations of the transcendental functions. -/
def skewStep (log log1p : ℚ → ℚ) (f : Frame) (c : String) : Frame :=
  match f.get? c with
  | some col =>
    if col.vals.all (fun v => decide (0 < v)) then
      f.set (c ++ "_log") ⟨Dtype.float64, col.vals.map log⟩
    else if col.vals.all (fun v => decide (0 ≤ v)) then
      f.set (c ++ "_log") ⟨Dtype.float64, col.vals.map log1p⟩
    else f
  | none => f

/-- The log-transform fold over the collected skewed features. -/
def skewPhase (log log1p : ℚ → ℚ) (tax : Taxonomy) (f : Frame) : Frame :=
  let skewed := tax.numeric.filter (fun c =>
    match f.get? c with
    | some col => skewGtOne col.vals
    | none => false)
  skewed.foldl (skewStep log log1p) f

/-- Embedding of `CreditScoringModel._perform_feature_engineering`
(`credit_scoring_model.py`, lines 335–423): interaction/ratio block, then
squared block, then aggregated alternative scores, then skew/log block, on
a copy of the input frame. -/
def perform_feature_engineering (log log1p : ℚ → ℚ) (tax : Taxonomy)
    (X : Frame) : Except String Frame :=
  let f1 := interactionPhase tax X
  let f2 := squaredPhase tax f1
  match aggPhase tax f2 with
  | .error e => .error e
  | .ok f3 => .ok (skewPhase log log1p tax f3)

end Credit

end LendSmart

namespace LendSmart

/-- C10: on a freshly constructed `CreditScoringModel` the taxonomy lists
are empty (`__init__`, lines 101–104), and since `train` runs
`_perform_feature_engineering` before `_create_preprocessor` populates
them (lines 441–446), the engineering pass inside the first `train` call
consults the empty taxonomy and adds no derived columns at all: the
engineered frame equals the input frame, for every input frame and every
interpretation of the log functions. -/
theorem engineering_noop_on_fresh_taxonomy (log log1p : ℚ → ℚ)
    (X : Credit.Frame) :
    Credit.perform_feature_engineering log log1p Credit.freshTaxonomy X =
      .ok X := by
  have hf : ∀ (l : List String),
      l.filter (Credit.importantPred ⟨[], [], [], []⟩) = [] := by
    intro l
    rw [List.filter_eq_nil]
    intro c hc
    simp [Credit.importantPred]
  unfold Credit.perform_feature_engineering Credit.interactionPhase
    Credit.squaredPhase Credit.aggPhase Credit.skewPhase Credit.freshTaxonomy
  simp [hf]

end LendSmart

namespace LendSmart

namespace Credit

/-- A fitted sklearn pipeline, opaque to this development: the number of
classes seen at fit time (`classes_`, the column count of `predict_proba`'s
output) together with abstract prediction functions. -/
structure Pipeline where
  nClasses : ℕ
  predictLabels : Frame → List ℚ
  probaPos : Frame → List ℚ

/-- `predict_proba(X)[:, 1]`: selecting column 1 of the `(n, n_classes)`
probability matrix, an `IndexError` when fewer than two classes were seen
at fit time. -/
def predictProbaCol1 (pl : Pipeline) (X : Frame) : Except String (List ℚ) :=
  if 2 ≤ pl.nClasses then .ok (pl.probaPos X)
  else .error "IndexError: index 1 is out of bounds"

/-- A constructed SHAP explainer, opaque to this development: per-row
attribution values (composed with the fitted preprocessor's transform) and
the baseline expected value. -/
structure Explainer where
  shapValues : Frame → List (List ℚ)
  expectedValue : ℚ

/-- The explanation payload of `predict_with_explanation`
(`credit_scoring_model.py`, lines 684–688). The feature-name extraction is
not modelled (`none`). -/
structure ExplanationPayload where
  shapValues : List (List ℚ)
  expectedValue : Option ℚ
  featureNames : Option (List String)

/-- The empty explanation dictionary returned when no explainer exists. -/
def emptyExplanation : ExplanationPayload :=
  ⟨[], none, none⟩

/-- The mutable state of a `CreditScoringModel` that the prediction paths
consult: the model-family key, the taxonomy lists, the optional fitted
pipeline and the optional explainer. -/
structure ModelState where
  modelType : String
  taxonomy : Taxonomy
  model : Option Pipeline
  explainer : Option Explainer

/-- A freshly constructed `CreditScoringModel` with the default
configuration (`__init__`, lines 87–106): default family `"ensemble"`,
empty taxonomy, no fitted model, no explainer. -/
def initModelState : ModelState :=
  { modelType := "ensemble", taxonomy := freshTaxonomy,
    model := none, explainer := none }

/-- Embedding of `CreditScoringModel.predict` (`credit_scoring_model.py`,
lines 603–620): raise when no model is trained, else optionally re-run
feature engineering and return the positive-class probability column. -/
def predict (log log1p : ℚ → ℚ) (st : ModelState) (X : Frame)
    (performFE : Bool) : Except String (List ℚ) :=
  match st.model with
  | none => .error "Model not trained. Call train() first."
  | some pl =>
    match (if performFE then
        perform_feature_engineering log log1p st.taxonomy X
      else .ok X) with
    | .error e => .error e
    | .ok X1 => predictProbaCol1 pl X1

/-- Embedding of `CreditScoringModel.predict_with_explanation`
(`credit_scoring_model.py`, lines 622–692): as `predict`, then attach SHAP
values and the expected value when an explainer is available, the empty
payload otherwise. -/
def predict_with_explanation (log log1p : ℚ → ℚ) (st : ModelState)
    (X : Frame) (performFE : Bool) :
    Except String (List ℚ × ExplanationPayload) :=
  match st.model with
  | none => .error "Model not trained. Call train() first."
  | some pl =>
    match (if performFE then
        perform_feature_engineering log log1p st.taxonomy X
      else .ok X) with
    | .error e => .error e
    | .ok X1 =>
      match predictProbaCol1 pl X1 with
      | .error e => .error e
      | .ok probs =>
        match st.explainer with
        | none => .ok (probs, emptyExplanation)
        | some ex =>
          .ok (probs, ⟨ex.shapValues X1, some ex.expectedValue, none⟩)

/-- `pd.concat([a.reset_index(drop=True), b.reset_index(drop=True)],
axis=1)`: the columns of both frames side by side. -/
def concatFrames (a b : Frame) : Frame :=
  ⟨max a.nrows b.nrows, a.cols ++ b.cols⟩

/-- The state of a `ModelIntegrator` (`credit_scoring_model.py`,
lines 989–999). -/
structure IntegratorState where
  creditModel : ModelState
  altDataWeight : ℚ
  tradDataWeight : ℚ

/-- The assessment dictionary built by `ModelIntegrator.predict`
(timestamp omitted — wall-clock time is not modelled). -/
structure Assessment where
  creditScore : ℤ
  defaultProbability : ℚ
  explanations : ExplanationPayload

/-- Embedding of `ModelIntegrator.predict` (`credit_scoring_model.py`,
lines 1021–1055): raise when the underlying credit model is untrained,
else concatenate the traditional and alternative frames, predict with
explanation, take the first row's probability (an `IndexError` on an empty
result), convert it to the bounded score and package the assessment. -/
def integrator_predict (log log1p : ℚ → ℚ) (ist : IntegratorState)
    (Xt Xa : Frame) : Except String (ℤ × Assessment) :=
  match ist.creditModel.model with
  | none => .error "Model not trained. Call train() first."
  | some _ =>
    let Xc := concatFrames Xt Xa
    match predict_with_explanation log log1p ist.creditModel Xc true with
    | .error e => .error e
    | .ok (probs, expl) =>
      match probs with
      | [] => .error "IndexError: index 0 is out of bounds"
      | p :: _ =>
        let score := calculate_credit_score p
        .ok (score, ⟨score, p, expl⟩)

end Credit

/-- C6: calling `predict` or `predict_with_explanation` on a
`CreditScoringModel` whose model is unset, and `ModelIntegrator.predict`
when the underlying credit model is untrained, raise the
"Model not trained" error — for every input frame, engineering flag and
log interpretation — rather than returning any default. -/
theorem untrained_predict_raises (log log1p : ℚ → ℚ)
    (st : Credit.ModelState) (ist : Credit.IntegratorState)
    (performFE : Bool) (X Xt Xa : Credit.Frame)
    (h1 : st.model = none) (h2 : ist.creditModel.model = none) :
    Credit.predict log log1p st X performFE =
      .error "Model not trained. Call train() first." ∧
    Credit.predict_with_explanation log log1p st X performFE =
      .error "Model not trained. Call train() first." ∧
    Credit.integrator_predict log log1p ist Xt Xa =
      .error "Model not trained. Call train() first." := by
  unfold Credit.predict Credit.predict_with_explanation
    Credit.integrator_predict
  rw [h1, h2]
  exact ⟨rfl, rfl, rfl⟩

/-- Witness for `untrained_predict_raises` on freshly constructed states
and an empty frame. -/
theorem untrained_predict_raises_witness :
    (Credit.initModelState.model = none) ∧
    (Credit.IntegratorState.mk Credit.initModelState 0.3 0.7).creditModel.model
        = none ∧
    (Credit.predict id id Credit.initModelState ⟨0, []⟩ true =
        .error "Model not trained. Call train() first." ∧
      Credit.predict_with_explanation id id Credit.initModelState ⟨0, []⟩ true =
        .error "Model not trained. Call train() first." ∧
      Credit.integrator_predict id id
          (Credit.IntegratorState.mk Credit.initModelState 0.3 0.7)
          ⟨0, []⟩ ⟨0, []⟩ =
        .error "Model not trained. Call train() first.") :=
  ⟨rfl, rfl,
    untrained_predict_raises id id Credit.initModelState
      (Credit.IntegratorState.mk Credit.initModelState 0.3 0.7)
      true ⟨0, []⟩ ⟨0, []⟩ ⟨0, []⟩ rfl rfl⟩

end LendSmart

namespace LendSmart

namespace Credit

theorem set_nrows (f : Frame) (n : String) (c : Col) :
    (f.set n c).nrows = f.nrows := rfl

theorem foldl_nrows {α : Type} (g : Frame → α → Frame)
    (h : ∀ f a, (g f a).nrows = f.nrows) :
    ∀ (l : List α) (f : Frame), (l.foldl g f).nrows = f.nrows := by
  intro l
  induction l with
  | nil => intro f; rfl
  | cons hd tl ih => intro f; rw [List.foldl_cons, ih, h]

theorem ratioStep_nrows (t a : String) (f1 : Frame) :
    (ratioStep t a f1).nrows = f1.nrows := by
  unfold ratioStep
  repeat' split
  all_goals rfl

theorem interStep_nrows (t a : String) (f : Frame) :
    (interStep t a f).nrows = f.nrows := by
  unfold interStep
  repeat' split
  · rw [ratioStep_nrows]; rfl
  all_goals rfl

theorem interOuterStep_nrows (alt5 : List String) (f : Frame) (t : String) :
    (interOuterStep alt5 f t).nrows = f.nrows := by
  unfold interOuterStep
  repeat' split
  · exact foldl_nrows _ (fun f a => interStep_nrows t a f) alt5 f
  all_goals rfl

theorem interactionPhase_nrows (tax : Taxonomy) (X : Frame) :
    (interactionPhase tax X).nrows = X.nrows := by
  unfold interactionPhase
  split
  · exact foldl_nrows _ (fun f t => interOuterStep_nrows _ f t) _ X
  · rfl

theorem squaredStep_nrows (f : Frame) (c : String) :
    (squaredStep f c).nrows = f.nrows := by
  unfold squaredStep
  split
  · rfl
  · rfl

theorem squaredPhase_nrows (tax : Taxonomy) (f : Frame) :
    (squaredPhase tax f).nrows = f.nrows := by
  unfold squaredPhase
  exact foldl_nrows _ squaredStep_nrows _ f

theorem aggPhase_nrows {tax : Taxonomy} {f g : Frame}
    (h : aggPhase tax f = .ok g) : g.nrows = f.nrows := by
  unfold aggPhase at h
  split at h
  · split at h
    · exact absurd h (by simp)
    · split at h
      · cases h; rfl
      · dsimp only at h
        split at h
        · cases h; rfl
        · cases h; rfl
  · cases h; rfl

theorem skewStep_nrows (log log1p : ℚ → ℚ) (f : Frame) (c : String) :
    (skewStep log log1p f c).nrows = f.nrows := by
  unfold skewStep
  repeat' split
  all_goals rfl

theorem skewPhase_nrows (log log1p : ℚ → ℚ) (tax : Taxonomy) (f : Frame) :
    (skewPhase log log1p tax f).nrows = f.nrows := by
  unfold skewPhase
  exact foldl_nrows _ (skewStep_nrows log log1p) _ f

theorem engineering_nrows {log log1p : ℚ → ℚ} {tax : Taxonomy} {X Y : Frame}
    (h : perform_feature_engineering log log1p tax X = .ok Y) :
    Y.nrows = X.nrows := by
  unfold perform_feature_engineering at h
  dsimp only at h
  split at h
  · exact absurd h (by simp)
  · rename_i f3 hagg
    cases h
    rw [skewPhase_nrows]
    rw [aggPhase_nrows hagg, squaredPhase_nrows, interactionPhase_nrows]

/-- The distinct labels of a target vector (`np.unique(y)` as a set). -/
def classSet (y : List ℚ) : Finset ℚ :=
  y.toFinset

/-- `accuracy_score`: fraction of positions where prediction equals truth. -/
def accuracyScore (yTrue yPred : List ℚ) : ℚ :=
  (List.zipWith (fun a b => if a == b then (1 : ℚ) else 0) yTrue yPred).sum /
    yTrue.length

/-- The scikit-learn calls `CreditScoringModel.train` makes, opaque to this
development. Each field stands for one library entry point:
`train_test_split(..., stratify=y)`, the fit (grid search over the family's
parameter grid, or a direct `pipeline.fit`), and the binary-classification
metric functions. The theorems about `train` hypothesise exactly the
documented behaviour of these calls (empty-input and stratification
behaviour of the split, `classes_` of a fitted classifier, the
binary-target requirement of `precision_score`). -/
structure SkEnv where
  trainTestSplit :
    Frame → List ℚ → Except String (Frame × Frame × List ℚ × List ℚ)
  fitPipeline : String → Bool → Frame → List ℚ → Except String Pipeline
  precisionScore : List ℚ → List ℚ → Except String ℚ
  recallScore : List ℚ → List ℚ → Except String ℚ
  f1Score : List ℚ → List ℚ → Except String ℚ
  rocAucScore : List ℚ → List ℚ → Except String ℚ
  avgPrecisionScore : List ℚ → List ℚ → Except String ℚ
  createExplainer : String → Pipeline → Frame → Option Explainer

/-- Embedding of `CreditScoringModel.train` (`credit_scoring_model.py`,
lines 425–537): optional feature engineering, preprocessor construction
(which populates the taxonomy via `_identify_feature_types`), the
stratified 80/20 split, the fit (with or without grid search), and the
validation metrics — probability column extraction, accuracy, precision,
recall, F1, ROC-AUC, average precision — whose failures propagate, there
being no exception handling in `train`. Feature-importance extraction and
explainer construction are wrapped in `try/except` by the source and
cannot raise; the explainer result is recorded in the state. -/
def train (env : SkEnv) (log log1p : ℚ → ℚ) (st : ModelState) (X : Frame)
    (y : List ℚ) (performFE gridSearch : Bool) : Except String ModelState :=
  match (if performFE then
      perform_feature_engineering log log1p st.taxonomy X
    else .ok X) with
  | .error e => .error e
  | .ok X1 =>
    let tax := identify_feature_types X1
    match env.trainTestSplit X1 y with
    | .error e => .error e
    | .ok (Xtr, Xval, ytr, yval) =>
      match env.fitPipeline st.modelType gridSearch Xtr ytr with
      | .error e => .error e
      | .ok pl =>
        let ypred := pl.predictLabels Xval
        match predictProbaCol1 pl Xval with
        | .error e => .error e
        | .ok yprob =>
          let _accuracy := accuracyScore yval ypred
          match env.precisionScore yval ypred with
          | .error e => .error e
          | .ok _ =>
            match env.recallScore yval ypred with
            | .error e => .error e
            | .ok _ =>
              match env.f1Score yval ypred with
              | .error e => .error e
              | .ok _ =>
                match env.rocAucScore yval yprob with
                | .error e => .error e
                | .ok _ =>
                  match env.avgPrecisionScore yval yprob with
                  | .error e => .error e
                  | .ok _ =>
                    .ok { st with
                      taxonomy := tax,
                      model := some pl,
                      explainer := env.createExplainer st.modelType pl Xtr }

end Credit

end LendSmart

namespace LendSmart

/-- C2: `CreditScoringModel.train` contains no exception handling, so with
the scikit-learn calls behaving as documented — a stratified
`train_test_split` fails on an empty sample and otherwise yields splits
carrying the same label classes, a fitted classifier's `classes_` are the
distinct training labels, and `precision_score` (the first
binary-only metric computed on the held-out labels) rejects more than two
classes — `train` raises an error whenever the target is not binary
(fewer or more than two distinct values) or the feature frame is empty,
never silently training or returning a default. -/
theorem train_raises_on_nonbinary_or_empty
    (env : Credit.SkEnv) (log log1p : ℚ → ℚ) (st : Credit.ModelState)
    (X : Credit.Frame) (y : List ℚ) (performFE gridSearch : Bool)
    (hsplitErr : ∀ (X1 : Credit.Frame) (y1 : List ℚ), X1.nrows = 0 →
      ∃ e, env.trainTestSplit X1 y1 = .error e)
    (hsplitOk : ∀ (X1 : Credit.Frame) (y1 : List ℚ) r,
      env.trainTestSplit X1 y1 = .ok r →
      Credit.classSet r.2.2.1 = Credit.classSet y1 ∧
        Credit.classSet r.2.2.2 = Credit.classSet y1)
    (hfit : ∀ mt gs Xtr ytr pl, env.fitPipeline mt gs Xtr ytr = .ok pl →
      pl.nClasses = (Credit.classSet ytr).card)
    (hprec : ∀ yt yp, 2 < (Credit.classSet yt).card →
      ∃ e, env.precisionScore yt yp = .error e)
    (hbad : (Credit.classSet y).card ≠ 2 ∨ X.nrows = 0) :
    ∃ e, Credit.train env log log1p st X y performFE gridSearch = .error e := by
  unfold Credit.train
  cases hfe : (if performFE then
      Credit.perform_feature_engineering log log1p st.taxonomy X
    else .ok X) with
  | error e => exact ⟨e, by simp only [hfe]⟩
  | ok X1 =>
    have hnr : X1.nrows = X.nrows := by
      cases performFE with
      | true =>
        simp only [if_pos] at hfe
        exact Credit.engineering_nrows hfe
      | false =>
        simp only [Bool.false_eq_true, if_false] at hfe
        rw [Except.ok.inj hfe]
    cases hsp : env.trainTestSplit X1 y with
    | error e => exact ⟨e, by simp only [hfe, hsp]⟩
    | ok r =>
      obtain ⟨Xtr, Xval, ytr, yval⟩ := r
      obtain ⟨hytr, hyval⟩ := hsplitOk X1 y (Xtr, Xval, ytr, yval) hsp
      dsimp only at hytr hyval
      rcases hbad with hcard | hrows
      · cases hft : env.fitPipeline st.modelType gridSearch Xtr ytr with
        | error e => exact ⟨e, by simp only [hfe, hsp, hft]⟩
        | ok pl =>
          have hcls : pl.nClasses = (Credit.classSet y).card := by
            rw [hfit _ _ _ _ _ hft, hytr]
          rcases Nat.lt_or_ge (Credit.classSet y).card 2 with hlt | hge
          · have hpc : Credit.predictProbaCol1 pl Xval =
                .error "IndexError: index 1 is out of bounds" := by
              unfold Credit.predictProbaCol1
              rw [if_neg (by rw [hcls]; omega)]
            exact ⟨"IndexError: index 1 is out of bounds",
              by simp only [hfe, hsp, hft, hpc]⟩
          · have h3 : 2 < (Credit.classSet y).card :=
              lt_of_le_of_ne hge (Ne.symm hcard)
            have hpc : Credit.predictProbaCol1 pl Xval =
                .ok (pl.probaPos Xval) := by
              unfold Credit.predictProbaCol1
              rw [if_pos (by rw [hcls]; exact hge)]
            obtain ⟨e, hpr⟩ := hprec yval (pl.predictLabels Xval)
              (by rw [hyval]; exact h3)
            exact ⟨e, by simp only [hfe, hsp, hft, hpc, hpr]⟩
      · obtain ⟨e, hsp0⟩ := hsplitErr X1 y (by rw [hnr, hrows])
        rw [hsp0] at hsp
        exact absurd hsp (by simp)

/-- A concrete interpretation of the scikit-learn boundary satisfying the
contracts hypothesised by `train_raises_on_nonbinary_or_empty`. -/
def witnessSkEnv : Credit.SkEnv :=
  { trainTestSplit := fun X y =>
      if X.nrows = 0 then
        .error "ValueError: the resulting train set will be empty"
      else .ok (X, X, y, y),
    fitPipeline := fun _ _ _ ytr =>
      .ok ⟨(Credit.classSet ytr).card, fun _ => [], fun _ => []⟩,
    precisionScore := fun yt _ =>
      if 2 < (Credit.classSet yt).card then
        .error "ValueError: Target is multiclass but average is binary"
      else .ok 0,
    recallScore := fun _ _ => .ok 0,
    f1Score := fun _ _ => .ok 0,
    rocAucScore := fun _ _ => .ok 0,
    avgPrecisionScore := fun _ _ => .ok 0,
    createExplainer := fun _ _ _ => none }

/-- Witness for `train_raises_on_nonbinary_or_empty`: the concrete
environment satisfies every contract, and training a fresh model on the
empty frame with the empty (hence non-binary) target errors. -/
theorem train_raises_on_nonbinary_or_empty_witness :
    (∀ (X1 : Credit.Frame) (y1 : List ℚ), X1.nrows = 0 →
      ∃ e, witnessSkEnv.trainTestSplit X1 y1 = .error e) ∧
    (∀ (X1 : Credit.Frame) (y1 : List ℚ) r,
      witnessSkEnv.trainTestSplit X1 y1 = .ok r →
      Credit.classSet r.2.2.1 = Credit.classSet y1 ∧
        Credit.classSet r.2.2.2 = Credit.classSet y1) ∧
    (∀ mt gs Xtr ytr pl, witnessSkEnv.fitPipeline mt gs Xtr ytr = .ok pl →
      pl.nClasses = (Credit.classSet ytr).card) ∧
    (∀ yt yp, 2 < (Credit.classSet yt).card →
      ∃ e, witnessSkEnv.precisionScore yt yp = .error e) ∧
    ((Credit.classSet ([] : List ℚ)).card ≠ 2 ∨
      (Credit.Frame.mk 0 []).nrows = 0) ∧
    ∃ e, Credit.train witnessSkEnv id id Credit.initModelState
      (Credit.Frame.mk 0 []) [] true true = .error e := by
  have c1 : ∀ (X1 : Credit.Frame) (y1 : List ℚ), X1.nrows = 0 →
      ∃ e, witnessSkEnv.trainTestSplit X1 y1 = .error e := by
    intro X1 y1 h
    exact ⟨"ValueError: the resulting train set will be empty",
      by simp [witnessSkEnv, h]⟩
  have c2 : ∀ (X1 : Credit.Frame) (y1 : List ℚ) r,
      witnessSkEnv.trainTestSplit X1 y1 = .ok r →
      Credit.classSet r.2.2.1 = Credit.classSet y1 ∧
        Credit.classSet r.2.2.2 = Credit.classSet y1 := by
    intro X1 y1 r h
    unfold witnessSkEnv at h
    dsimp only at h
    split at h
    · exact absurd h (by simp)
    · cases h
      exact ⟨rfl, rfl⟩
  have c3 : ∀ mt gs Xtr ytr pl,
      witnessSkEnv.fitPipeline mt gs Xtr ytr = .ok pl →
      pl.nClasses = (Credit.classSet ytr).card := by
    intro mt gs Xtr ytr pl h
    cases h
    rfl
  have c4 : ∀ yt yp, 2 < (Credit.classSet yt).card →
      ∃ e, witnessSkEnv.precisionScore yt yp = .error e := by
    intro yt yp h
    exact ⟨"ValueError: Target is multiclass but average is binary",
      by simp [witnessSkEnv, if_pos h]⟩
  refine ⟨c1, c2, c3, c4, Or.inr rfl, ?_⟩
  exact train_raises_on_nonbinary_or_empty witnessSkEnv id id
    Credit.initModelState (Credit.Frame.mk 0 []) [] true true
    c1 c2 c3 c4 (Or.inr rfl)

end LendSmart

namespace LendSmart

namespace Credit

theorem getPairs_setPairs_self (l : List (String × Col)) (n : String) (c : Col) :
    getPairs (setPairs l n c) n = some c := by
  induction l with
  | nil => simp [setPairs, getPairs]
  | cons hd tl ih =>
    obtain ⟨m, d⟩ := hd
    unfold setPairs
    by_cases h : m == n
    · simp [getPairs, h]
    · simp only [if_neg h]
      unfold getPairs
      simp only [if_neg h]
      exact ih

theorem getPairs_setPairs_ne (l : List (String × Col)) {m n : String}
    (h : ¬ n = m) (c : Col) :
    getPairs (setPairs l n c) m = getPairs l m := by
  induction l with
  | nil =>
    simp only [setPairs, getPairs]
    rw [if_neg (by simpa using h)]
  | cons hd tl ih =>
    obtain ⟨k, d⟩ := hd
    unfold setPairs
    by_cases hk : k == n
    · simp only [if_pos hk]
      unfold getPairs
      rw [if_neg (by simpa using h), if_neg (by
        have : k = n := eq_of_beq hk
        simpa [this] using h)]
    · simp only [if_neg hk]
      unfold getPairs
      by_cases hkm : k == m
      · simp only [if_pos hkm]
      · simp only [if_neg hkm]
        exact ih

theorem get?_set_self (f : Frame) (n : String) (c : Col) :
    (f.set n c).get? n = some c :=
  getPairs_setPairs_self f.cols n c

theorem get?_set_ne (f : Frame) {m n : String} (h : ¬ n = m) (c : Col) :
    (f.set n c).get? m = f.get? m :=
  getPairs_setPairs_ne f.cols h c

theorem setPairs_eq_of_getPairs (l : List (String × Col)) (n : String)
    (c : Col) (h : getPairs l n = some c) : setPairs l n c = l := by
  induction l with
  | nil => simp [getPairs] at h
  | cons hd tl ih =>
    obtain ⟨m, d⟩ := hd
    unfold getPairs at h
    unfold setPairs
    by_cases hm : m == n
    · simp only [if_pos hm] at h ⊢
      cases h
      rw [eq_of_beq hm]
    · simp only [if_neg hm] at h ⊢
      rw [ih h]

theorem set_eq_of_get? (f : Frame) (n : String) (c : Col)
    (h : f.get? n = some c) : f.set n c = f := by
  unfold Frame.set
  rw [setPairs_eq_of_getPairs f.cols n c h]

theorem mem_fst_setPairs {l : List (String × Col)} {n : String} {c : Col}
    {m : String} (h : m ∈ (setPairs l n c).map Prod.fst) :
    m ∈ l.map Prod.fst ∨ m = n := by
  induction l with
  | nil =>
    simp [setPairs] at h
    exact Or.inr h
  | cons hd tl ih =>
    obtain ⟨k, d⟩ := hd
    unfold setPairs at h
    by_cases hk : k == n
    · simp only [if_pos hk, List.map_cons, List.mem_cons] at h
      rcases h with h | h
      · exact Or.inr h
      · exact Or.inl (by simp [h])
    · simp only [if_neg hk, List.map_cons, List.mem_cons] at h
      rcases h with h | h
      · exact Or.inl (by simp [h])
      · rcases ih h with h2 | h2
        · exact Or.inl (List.mem_cons_of_mem _ h2)
        · exact Or.inr h2

theorem mem_names_set {f : Frame} {n : String} {c : Col} {m : String}
    (h : m ∈ (f.set n c).names) : m ∈ f.names ∨ m = n :=
  mem_fst_setPairs h

theorem filter_fst_setPairs (l : List (String × Col)) (n : String) (c : Col)
    (p : String → Bool) (hp : p n = false) :
    ((setPairs l n c).map Prod.fst).filter p = (l.map Prod.fst).filter p := by
  induction l with
  | nil => simp [setPairs, List.filter, hp]
  | cons hd tl ih =>
    obtain ⟨k, d⟩ := hd
    unfold setPairs
    by_cases hk : k == n
    · have hkn : k = n := eq_of_beq hk
      subst hkn
      rw [if_pos hk]
      rfl
    · simp only [if_neg hk, List.map_cons]
      rw [List.filter_cons, List.filter_cons, ih]

theorem filter_names_set (f : Frame) (n : String) (c : Col)
    (p : String → Bool) (hp : p n = false) :
    (f.set n c).names.filter p = f.names.filter p :=
  filter_fst_setPairs f.cols n c p hp

theorem startsWith_append (pre s : String) :
    startsWithStr (pre ++ s) pre = true := by
  unfold startsWithStr
  rw [String.data_append]
  exact List.isPrefixOf_iff_prefix.mpr (List.prefix_append _ _)

theorem startsWith_interName (t a : String) :
    startsWithStr (interName t a) "interaction_" = true := by
  have h : interName t a = "interaction_" ++ (t ++ ("_" ++ a)) := by
    unfold interName
    rw [String.append_assoc, String.append_assoc]
  rw [h]
  exact startsWith_append _ _

theorem startsWith_ratioName (t a : String) :
    startsWithStr (ratioName t a) "ratio_" = true := by
  have h : ratioName t a = "ratio_" ++ (t ++ ("_to_" ++ a)) := by
    unfold ratioName
    rw [String.append_assoc, String.append_assoc]
  rw [h]
  exact startsWith_append _ _

theorem ne_of_startsWith_ne {s n pre : String}
    (hs : startsWithStr s pre = true) (hn : startsWithStr n pre = false) :
    ¬ s = n := by
  intro h
  rw [h, hn] at hs
  exact Bool.false_ne_true hs

theorem mem_take_succ {α : Type} {a : α} :
    ∀ {k : ℕ} {l : List α}, a ∈ l.take k → a ∈ l.take (k + 1) := by
  intro k l
  induction l generalizing k with
  | nil => intro h; simp at h
  | cons hd tl ih =>
    intro h
    cases k with
    | zero => simp at h
    | succ k =>
      simp only [List.take_succ_cons, List.mem_cons] at h ⊢
      rcases h with h | h
      · exact Or.inl h
      · exact Or.inr (ih h)

theorem mem_take_filter {α : Type} (p : α → Bool) :
    ∀ (k : ℕ) (l : List α) (a : α),
      a ∈ l.take k → p a = true → a ∈ (l.filter p).take k := by
  intro k l
  induction l generalizing k with
  | nil => intro a h; simp at h
  | cons hd tl ih =>
    intro a h hp
    cases k with
    | zero => simp at h
    | succ k =>
      simp only [List.take_succ_cons, List.mem_cons] at h
      rcases h with h | h
      · subst h
        simp [List.filter_cons, hp, List.take_succ_cons]
      · have htl := ih k a h hp
        by_cases hhd : p hd
        · simp only [List.filter_cons, if_pos hhd, List.take_succ_cons,
            List.mem_cons]
          exact Or.inr htl
        · simp only [List.filter_cons, if_neg hhd]
          exact mem_take_succ htl

theorem foldl_inv {β : Type} (g : Frame → β → Frame) (P : Frame → Prop) :
    ∀ (l : List β) (f : Frame), P f →
      (∀ f b, b ∈ l → P f → P (g f b)) → P (l.foldl g f) := by
  intro l
  induction l with
  | nil => intro f hf _; exact hf
  | cons hd tl ih =>
    intro f hf hstep
    rw [List.foldl_cons]
    exact ih (g f hd) (hstep f hd (List.mem_cons_self hd tl) hf)
      (fun f b hb => hstep f b (List.mem_cons_of_mem hd hb))

end Credit

end LendSmart

namespace LendSmart

namespace Credit

/-- Whether a column is present in the frame with a numeric dtype. -/
def numericPresent (X : Frame) (c : String) : Bool :=
  match X.get? c with
  | some col => numericDtype col.dtype
  | none => false

/-- A name free of the interaction/ratio prefixes. -/
def noDerivedPrefix (n : String) : Bool :=
  !(startsWithStr n "interaction_") && !(startsWithStr n "ratio_")

/-- What C9 asserts of one column added by the interaction/ratio block:
it is the interaction column of a pair of columns among the first five
numeric traditional and the first five numeric alternative features, or
the ratio column of such a pair whose denominator column is everywhere
non-zero in the input batch. -/
def interRatioSpec (tax : Taxonomy) (X : Frame) (m : String) : Prop :=
  ∃ t a, t ∈ (tax.traditional.filter (numericPresent X)).take 5 ∧
    a ∈ (tax.alternative.filter (numericPresent X)).take 5 ∧
    (m = interName t a ∨
      (m = ratioName t a ∧
        ∃ ca, X.get? a = some ca ∧ ∀ v ∈ ca.vals, v ≠ 0))

/-- Invariant carried through the interaction-phase folds: the columns
named by the (take-5) taxonomy lists are untouched, and every column name
is either an input name or one satisfying `interRatioSpec`. -/
def interInv (tax : Taxonomy) (X : Frame) (f : Frame) : Prop :=
  (∀ n ∈ tax.traditional.take 5 ++ tax.alternative.take 5,
    f.get? n = X.get? n) ∧
  (∀ m ∈ f.names, m ∈ X.names ∨ interRatioSpec tax X m)

theorem interStep_inv (tax : Taxonomy) (X : Frame)
    (hsh : ∀ n ∈ tax.traditional.take 5 ++ tax.alternative.take 5,
      noDerivedPrefix n = true)
    {t a : String} (ht : t ∈ tax.traditional.take 5)
    (ha : a ∈ tax.alternative.take 5)
    (htX : numericPresent X t = true)
    (f : Frame) (hf : interInv tax X f) : interInv tax X (interStep t a f) := by
  have hamem : a ∈ tax.traditional.take 5 ++ tax.alternative.take 5 :=
    List.mem_append_right _ ha
  have hinter_ne : ∀ n ∈ tax.traditional.take 5 ++ tax.alternative.take 5,
      ¬ interName t a = n := by
    intro n hn
    have := hsh n hn
    unfold noDerivedPrefix at this
    exact ne_of_startsWith_ne (startsWith_interName t a)
      (by
        cases hpre : startsWithStr n "interaction_" with
        | false => rfl
        | true => rw [hpre] at this; simp at this)
  have hratio_ne : ∀ n ∈ tax.traditional.take 5 ++ tax.alternative.take 5,
      ¬ ratioName t a = n := by
    intro n hn
    have := hsh n hn
    unfold noDerivedPrefix at this
    exact ne_of_startsWith_ne (startsWith_ratioName t a)
      (by
        cases hpre : startsWithStr n "ratio_" with
        | false => rfl
        | true => rw [hpre] at this; simp at this)
  have htfilt : t ∈ (tax.traditional.filter (numericPresent X)).take 5 :=
    mem_take_filter _ 5 _ t ht htX
  unfold interStep
  cases hga : f.get? a with
  | none => exact hf
  | some ca =>
    dsimp only
    by_cases hnum : numericDtype ca.dtype = true
    · rw [if_pos hnum]
      cases hgt : f.get? t with
      | none => exact hf
      | some ct =>
        dsimp only
        have hXa : X.get? a = some ca := by rw [← hf.1 a hamem]; exact hga
        have haX : numericPresent X a = true := by
          unfold numericPresent
          rw [hXa]
          exact hnum
        have hafilt : a ∈ (tax.alternative.filter (numericPresent X)).take 5 :=
          mem_take_filter _ 5 _ a ha haX
        have hf1 : interInv tax X (f.set (interName t a)
            ⟨mulDtype ct.dtype ca.dtype,
             List.zipWith (· * ·) ct.vals ca.vals⟩) := by
          constructor
          · intro n hn
            rw [get?_set_ne f (hinter_ne n hn) _]
            exact hf.1 n hn
          · intro m hm
            rcases mem_names_set hm with hm2 | hm2
            · exact hf.2 m hm2
            · exact Or.inr ⟨t, a, htfilt, hafilt, Or.inl hm2⟩
        unfold ratioStep
        cases hga1 : Frame.get? (f.set (interName t a)
            ⟨mulDtype ct.dtype ca.dtype,
             List.zipWith (· * ·) ct.vals ca.vals⟩) a with
        | none => exact hf1
        | some ca1 =>
          cases hgt1 : Frame.get? (f.set (interName t a)
              ⟨mulDtype ct.dtype ca.dtype,
               List.zipWith (· * ·) ct.vals ca.vals⟩) t with
          | none => exact hf1
          | some ct1 =>
            dsimp only
            have hca1 : ca1 = ca := by
              rw [get?_set_ne f (hinter_ne a hamem) _, hga] at hga1
              exact (Option.some.inj hga1).symm
            by_cases hz : ca1.vals.all (fun v => decide (v ≠ 0)) = true
            · rw [if_pos hz]
              constructor
              · intro n hn
                rw [get?_set_ne _ (hratio_ne n hn) _]
                exact hf1.1 n hn
              · intro m hm
                rcases mem_names_set hm with hm2 | hm2
                · exact hf1.2 m hm2
                · refine Or.inr ⟨t, a, htfilt, hafilt, Or.inr ⟨hm2, ca, hXa, ?_⟩⟩
                  intro v hv
                  have := List.all_eq_true.mp hz v (by rw [hca1]; exact hv)
                  exact of_decide_eq_true this
            · rw [if_neg hz]
              exact hf1
    · rw [if_neg hnum]
      exact hf

theorem interOuterStep_inv (tax : Taxonomy) (X : Frame)
    (hsh : ∀ n ∈ tax.traditional.take 5 ++ tax.alternative.take 5,
      noDerivedPrefix n = true)
    {t : String} (ht : t ∈ tax.traditional.take 5)
    (f : Frame) (hf : interInv tax X f) :
    interInv tax X (interOuterStep (tax.alternative.take 5) f t) := by
  unfold interOuterStep
  cases hgt : f.get? t with
  | none => exact hf
  | some ct =>
    dsimp only
    by_cases hnum : numericDtype ct.dtype = true
    · rw [if_pos hnum]
      have htX : numericPresent X t = true := by
        unfold numericPresent
        rw [← hf.1 t (List.mem_append_left _ ht), hgt]
        exact hnum
      exact foldl_inv _ (interInv tax X) _ f hf
        (fun f' a ha hf' => interStep_inv tax X hsh ht ha htX f' hf')
    · rw [if_neg hnum]
      exact hf

theorem interactionPhase_inv (tax : Taxonomy) (X : Frame)
    (hsh : ∀ n ∈ tax.traditional.take 5 ++ tax.alternative.take 5,
      noDerivedPrefix n = true) :
    interInv tax X (interactionPhase tax X) := by
  have hbase : interInv tax X X :=
    ⟨fun n _ => rfl, fun m hm => Or.inl hm⟩
  unfold interactionPhase
  split
  · exact foldl_inv _ (interInv tax X) _ X hbase
      (fun f t ht hf => interOuterStep_inv tax X hsh ht f hf)
  · exact hbase

end Credit

/-- C9: every column created by the interaction/ratio block and absent
from the input is an `interaction_{t}_{a}` or `ratio_{t}_to_{a}` column
for a pair with `t` among the first five traditional numeric columns and
`a` among the first five alternative numeric columns (in original order),
and a ratio column is added for a pair only when the denominator column
`a` contains no zero value anywhere in the input batch. The hypothesis
records that the consulted taxonomy names do not themselves carry the
derived-name prefixes. -/
theorem interaction_ratio_cols_bounded_and_safe
    (tax : Credit.Taxonomy) (X : Credit.Frame)
    (hsh : ∀ n ∈ tax.traditional.take 5 ++ tax.alternative.take 5,
      Credit.noDerivedPrefix n = true) :
    ∀ m ∈ (Credit.interactionPhase tax X).names, m ∉ X.names →
      ∃ t a, t ∈ (tax.traditional.filter (Credit.numericPresent X)).take 5 ∧
        a ∈ (tax.alternative.filter (Credit.numericPresent X)).take 5 ∧
        (m = Credit.interName t a ∨
          (m = Credit.ratioName t a ∧
            ∃ ca, X.get? a = some ca ∧ ∀ v ∈ ca.vals, v ≠ 0)) := by
  intro m hm hnotin
  rcases (Credit.interactionPhase_inv tax X hsh).2 m hm with h | h
  · exact absurd h hnotin
  · exact h

end LendSmart

namespace LendSmart

/-- Witness taxonomy for the interaction/ratio claim: one traditional and
one alternative numeric column. -/
def c9Tax : Credit.Taxonomy :=
  ⟨["credit_score"], ["transaction_score"], [],
   ["credit_score", "transaction_score"]⟩

/-- Witness frame for the interaction/ratio claim: two rows of the two
numeric columns, the alternative one zero-free. -/
def c9Frame : Credit.Frame :=
  ⟨2, [("credit_score", ⟨Dtype.float64, [1, 2]⟩),
       ("transaction_score", ⟨Dtype.float64, [3, 4]⟩)]⟩

/-- Witness for `interaction_ratio_cols_bounded_and_safe`: on `c9Frame` the
phase adds `interaction_credit_score_transaction_score`, which the theorem
places among the allowed pairs. -/
theorem interaction_ratio_cols_bounded_and_safe_witness :
    (∀ n ∈ c9Tax.traditional.take 5 ++ c9Tax.alternative.take 5,
      Credit.noDerivedPrefix n = true) ∧
    Credit.interName "credit_score" "transaction_score" ∈
      (Credit.interactionPhase c9Tax c9Frame).names ∧
    Credit.interName "credit_score" "transaction_score" ∉ c9Frame.names ∧
    (∃ t a,
      t ∈ (c9Tax.traditional.filter (Credit.numericPresent c9Frame)).take 5 ∧
      a ∈ (c9Tax.alternative.filter (Credit.numericPresent c9Frame)).take 5 ∧
      (Credit.interName "credit_score" "transaction_score" =
          Credit.interName t a ∨
        (Credit.interName "credit_score" "transaction_score" =
            Credit.ratioName t a ∧
          ∃ ca, c9Frame.get? a = some ca ∧ ∀ v ∈ ca.vals, v ≠ 0))) := by
  have hsh : ∀ n ∈ c9Tax.traditional.take 5 ++ c9Tax.alternative.take 5,
      Credit.noDerivedPrefix n = true := by decide
  have heval : Credit.interactionPhase c9Tax c9Frame =
      ⟨2, [("credit_score", ⟨Dtype.float64, [1, 2]⟩),
           ("transaction_score", ⟨Dtype.float64, [3, 4]⟩),
           ("interaction_credit_score_transaction_score",
            ⟨Dtype.float64, [3, 8]⟩),
           ("ratio_credit_score_to_transaction_score",
            ⟨Dtype.float64, [1 / 3, 1 / 2]⟩)]⟩ := by
    simp [Credit.interactionPhase, Credit.interOuterStep, Credit.interStep,
      Credit.ratioStep, Credit.Frame.get?, Credit.getPairs, Credit.Frame.set,
      Credit.setPairs, Credit.numericDtype, Credit.interName, Credit.ratioName,
      Credit.mulDtype, c9Tax, c9Frame]
    try norm_num
  have hm : Credit.interName "credit_score" "transaction_score" ∈
      (Credit.interactionPhase c9Tax c9Frame).names := by
    rw [heval]
    decide
  have hni : Credit.interName "credit_score" "transaction_score" ∉
      c9Frame.names := by decide
  exact ⟨hsh, hm, hni,
    interaction_ratio_cols_bounded_and_safe c9Tax c9Frame hsh _ hm hni⟩

end LendSmart

namespace LendSmart

namespace Credit

/-- All column names the engineering pass consults through the taxonomy. -/
def taxNames (tax : Taxonomy) : List String :=
  tax.traditional ++ tax.alternative ++ tax.numeric

/-- A name carrying none of the shapes of the derived columns: no
`interaction_`/`ratio_` prefix, no `_squared`/`_log` suffix, not an
aggregate-column name. -/
def freshName (n : String) : Bool :=
  !(startsWithStr n "interaction_") && !(startsWithStr n "ratio_") &&
    !(endsWithStr n "_squared") && !(endsWithStr n "_log") &&
    !(aggColNames.contains n)

/-- The (traditional, alternative) pairs the interaction block ranges over. -/
def pairList (tax : Taxonomy) : List (String × String) :=
  (tax.traditional.take 5).flatMap
    (fun t => (tax.alternative.take 5).map (fun a => (t, a)))

/-- Every interaction/ratio column name the block can write. -/
def interCands (tax : Taxonomy) : List String :=
  (pairList tax).flatMap (fun p => [interName p.1 p.2, ratioName p.1 p.2])

/-- Every squared column name the squared block can write. -/
def squaredCands (tax : Taxonomy) : List String :=
  tax.numeric.map (fun c => c ++ "_squared")

/-- Every log column name the skew block can write. -/
def logCands (tax : Taxonomy) : List String :=
  tax.numeric.map (fun c => c ++ "_log")

/-- Every column name the whole engineering pass can write. -/
def allCands (tax : Taxonomy) : List String :=
  interCands tax ++ squaredCands tax ++ aggColNames ++ logCands tax

theorem endsWith_append (s suf : String) :
    endsWithStr (s ++ suf) suf = true := by
  unfold endsWithStr
  rw [String.data_append]
  exact List.isSuffixOf_iff_suffix.mpr (List.suffix_append _ _)

theorem string_append_right_cancel {a b s : String} (h : a ++ s = b ++ s) :
    a = b := by
  have hd : a.data ++ s.data = b.data ++ s.data := by
    rw [← String.data_append, ← String.data_append, h]
  have : a.data = b.data := List.append_cancel_right hd
  cases a; cases b
  simp only at this
  rw [this]

theorem ne_of_endsWith_ne {s n suf : String}
    (hs : endsWithStr s suf = true) (hn : endsWithStr n suf = false) :
    ¬ s = n := by
  intro h
  rw [h, hn] at hs
  exact Bool.false_ne_true hs

theorem freshName_spec {n : String} (h : freshName n = true) :
    startsWithStr n "interaction_" = false ∧ startsWithStr n "ratio_" = false ∧
    endsWithStr n "_squared" = false ∧ endsWithStr n "_log" = false ∧
    (aggColNames.contains n) = false := by
  unfold freshName at h
  simp only [Bool.and_eq_true, Bool.not_eq_true'] at h
  exact ⟨h.1.1.1.1, h.1.1.1.2, h.1.1.2, h.1.2, h.2⟩

/-- A fresh name differs from every candidate derived-column name. -/
theorem fresh_ne_cand {tax : Taxonomy} {n w : String}
    (hn : freshName n = true) (hw : w ∈ allCands tax) : ¬ w = n := by
  obtain ⟨h1, h2, h3, h4, h5⟩ := freshName_spec hn
  unfold allCands at hw
  rw [List.mem_append] at hw
  rcases hw with hw | hw
  · rw [List.mem_append] at hw
    rcases hw with hw | hw
    · rw [List.mem_append] at hw
      rcases hw with hw | hw
      · unfold interCands at hw
        rw [List.mem_flatMap] at hw
        obtain ⟨p, _, hp⟩ := hw
        simp only [List.mem_cons, List.not_mem_nil, or_false] at hp
        rcases hp with hp | hp
        · subst hp
          exact ne_of_startsWith_ne (startsWith_interName _ _) h1
        · subst hp
          exact ne_of_startsWith_ne (startsWith_ratioName _ _) h2
      · unfold squaredCands at hw
        rw [List.mem_map] at hw
        obtain ⟨c, _, hc⟩ := hw
        subst hc
        exact ne_of_endsWith_ne (endsWith_append c "_squared") h3
    · intro h
      subst h
      have hcontains : aggColNames.contains w = true := by simpa using hw
      rw [hcontains] at h5
      exact Bool.noConfusion h5
  · unfold logCands at hw
    rw [List.mem_map] at hw
    obtain ⟨c, _, hc⟩ := hw
    subst hc
    exact ne_of_endsWith_ne (endsWith_append c "_log") h4

/-- Generic preservation of an observation through a fold. -/
theorem foldl_obs_eq {β α : Type} (o : Frame → α) (g : Frame → β → Frame) :
    ∀ (l : List β), (∀ f b, b ∈ l → o (g f b) = o f) →
      ∀ f : Frame, o (l.foldl g f) = o f := by
  intro l
  induction l with
  | nil => intro _ f; rfl
  | cons hd tl ih =>
    intro h f
    rw [List.foldl_cons, ih (fun f b hb => h f b (List.mem_cons_of_mem hd hb)),
      h f hd (List.mem_cons_self hd tl)]

theorem ratioStep_cases (t a : String) (f1 : Frame) :
    ratioStep t a f1 = f1 ∨
    ∃ ct1 ca1, f1.get? t = some ct1 ∧ f1.get? a = some ca1 ∧
      ca1.vals.all (fun v => decide (v ≠ 0)) = true ∧
      ratioStep t a f1 = f1.set (ratioName t a)
        ⟨Dtype.float64, List.zipWith (· / ·) ct1.vals ca1.vals⟩ := by
  unfold ratioStep
  cases hga : f1.get? a with
  | none => exact Or.inl rfl
  | some ca1 =>
    cases hgt : f1.get? t with
    | none => exact Or.inl rfl
    | some ct1 =>
      dsimp only
      by_cases hz : ca1.vals.all (fun v => decide (v ≠ 0)) = true
      · rw [if_pos hz]
        exact Or.inr ⟨ct1, ca1, rfl, rfl, hz, rfl⟩
      · rw [if_neg hz]
        exact Or.inl rfl

theorem interStep_cases (t a : String) (f : Frame) :
    interStep t a f = f ∨
    ∃ ct ca, f.get? t = some ct ∧ f.get? a = some ca ∧
      numericDtype ca.dtype = true ∧
      interStep t a f = ratioStep t a (f.set (interName t a)
        ⟨mulDtype ct.dtype ca.dtype, List.zipWith (· * ·) ct.vals ca.vals⟩) := by
  unfold interStep
  cases hga : f.get? a with
  | none => exact Or.inl rfl
  | some ca =>
    dsimp only
    by_cases hnum : numericDtype ca.dtype = true
    · rw [if_pos hnum]
      cases hgt : f.get? t with
      | none => exact Or.inl rfl
      | some ct => exact Or.inr ⟨ct, ca, rfl, rfl, hnum, rfl⟩
    · rw [if_neg hnum]
      exact Or.inl rfl

theorem ratioStep_get?_outside {t a : String} {f1 : Frame} {m : String}
    (h2 : ¬ ratioName t a = m) : (ratioStep t a f1).get? m = f1.get? m := by
  rcases ratioStep_cases t a f1 with h | ⟨ct1, ca1, _, _, _, h⟩
  · rw [h]
  · rw [h, get?_set_ne _ h2]

theorem interStep_get?_outside {t a : String} {f : Frame} {m : String}
    (h1 : ¬ interName t a = m) (h2 : ¬ ratioName t a = m) :
    (interStep t a f).get? m = f.get? m := by
  rcases interStep_cases t a f with h | ⟨ct, ca, _, _, _, h⟩
  · rw [h]
  · rw [h, ratioStep_get?_outside h2, get?_set_ne _ h1]

theorem interOuterStep_get?_outside {alt5 : List String} {f : Frame}
    {t m : String}
    (h : ∀ a ∈ alt5, ¬ interName t a = m ∧ ¬ ratioName t a = m) :
    (interOuterStep alt5 f t).get? m = f.get? m := by
  unfold interOuterStep
  cases hgt : f.get? t with
  | none => rfl
  | some ct =>
    dsimp only
    by_cases hnum : numericDtype ct.dtype = true
    · rw [if_pos hnum]
      exact foldl_obs_eq (fun g => g.get? m) _ alt5
        (fun f' a ha => interStep_get?_outside (h a ha).1 (h a ha).2) f
    · rw [if_neg hnum]

theorem mem_pairList {tax : Taxonomy} {t a : String}
    (ht : t ∈ tax.traditional.take 5) (ha : a ∈ tax.alternative.take 5) :
    (t, a) ∈ pairList tax := by
  unfold pairList
  rw [List.mem_flatMap]
  exact ⟨t, ht, by rw [List.mem_map]; exact ⟨a, ha, rfl⟩⟩

theorem interName_mem_cands {tax : Taxonomy} {t a : String}
    (ht : t ∈ tax.traditional.take 5) (ha : a ∈ tax.alternative.take 5) :
    interName t a ∈ interCands tax := by
  unfold interCands
  rw [List.mem_flatMap]
  exact ⟨(t, a), mem_pairList ht ha, by simp⟩

theorem ratioName_mem_cands {tax : Taxonomy} {t a : String}
    (ht : t ∈ tax.traditional.take 5) (ha : a ∈ tax.alternative.take 5) :
    ratioName t a ∈ interCands tax := by
  unfold interCands
  rw [List.mem_flatMap]
  exact ⟨(t, a), mem_pairList ht ha, by simp⟩

theorem interactionPhase_get?_outside {tax : Taxonomy} {X : Frame}
    {m : String} (h : ∀ w ∈ interCands tax, ¬ w = m) :
    (interactionPhase tax X).get? m = X.get? m := by
  unfold interactionPhase
  split
  · exact foldl_obs_eq (fun g => g.get? m) _ _
      (fun f t ht => interOuterStep_get?_outside
        (fun a ha => ⟨h _ (interName_mem_cands ht ha),
          h _ (ratioName_mem_cands ht ha)⟩)) X
  · rfl

theorem squaredStep_get?_outside {f : Frame} {c m : String}
    (h : ¬ (c ++ "_squared") = m) : (squaredStep f c).get? m = f.get? m := by
  unfold squaredStep
  cases f.get? c with
  | none => rfl
  | some col => exact get?_set_ne _ h _

theorem mem_of_mem_importantList {tax : Taxonomy} {f : Frame} {c : String}
    (hc : c ∈ (f.names.filter (importantPred tax)).take 5) :
    c ∈ tax.numeric := by
  have h1 : c ∈ f.names.filter (importantPred tax) := List.take_subset _ _ hc
  have h2 := List.of_mem_filter h1
  unfold importantPred at h2
  rw [Bool.and_eq_true] at h2
  simpa using h2.1

theorem squaredPhase_get?_outside {tax : Taxonomy} {f : Frame} {m : String}
    (h : ∀ w ∈ squaredCands tax, ¬ w = m) :
    (squaredPhase tax f).get? m = f.get? m := by
  unfold squaredPhase
  exact foldl_obs_eq (fun g => g.get? m) _ _
    (fun f' c hc => squaredStep_get?_outside
      (h _ (by
        unfold squaredCands
        rw [List.mem_map]
        exact ⟨c, mem_of_mem_importantList hc, rfl⟩))) f

theorem skewStep_get?_outside {log log1p : ℚ → ℚ} {f : Frame} {c m : String}
    (h : ¬ (c ++ "_log") = m) :
    (skewStep log log1p f c).get? m = f.get? m := by
  unfold skewStep
  cases f.get? c with
  | none => rfl
  | some col =>
    dsimp only
    by_cases h1 : col.vals.all (fun v => decide (0 < v)) = true
    · rw [if_pos h1]
      exact get?_set_ne _ h _
    · rw [if_neg h1]
      by_cases h2 : col.vals.all (fun v => decide (0 ≤ v)) = true
      · rw [if_pos h2]
        exact get?_set_ne _ h _
      · rw [if_neg h2]

theorem skewPhase_get?_outside {log log1p : ℚ → ℚ} {tax : Taxonomy}
    {f : Frame} {m : String} (h : ∀ w ∈ logCands tax, ¬ w = m) :
    (skewPhase log log1p tax f).get? m = f.get? m := by
  unfold skewPhase
  apply foldl_obs_eq (fun g => g.get? m)
  intro f' c hc
  have hcn : c ∈ tax.numeric := List.mem_of_mem_filter hc
  exact skewStep_get?_outside (h _ (by
    unfold logCands
    rw [List.mem_map]
    exact ⟨c, hcn, rfl⟩))

theorem aggPhase_get?_outside {tax : Taxonomy} {f g : Frame} {m : String}
    (hagg : aggPhase tax f = .ok g)
    (h : ∀ w ∈ aggColNames, ¬ w = m) : g.get? m = f.get? m := by
  have hmean : ¬ "alt_data_score_mean" = m := h _ (by simp [aggColNames])
  have hmin : ¬ "alt_data_score_min" = m := h _ (by simp [aggColNames])
  have hmax : ¬ "alt_data_score_max" = m := h _ (by simp [aggColNames])
  have hrange : ¬ "alt_data_score_range" = m := h _ (by simp [aggColNames])
  unfold aggPhase at hagg
  split at hagg
  · split at hagg
    · exact absurd hagg (by simp)
    · split at hagg
      · cases hagg; rfl
      · dsimp only at hagg
        split at hagg
        · cases hagg
          rw [get?_set_ne _ hrange, get?_set_ne _ hmax, get?_set_ne _ hmin,
            get?_set_ne _ hmean]
        · cases hagg
          rw [get?_set_ne _ hmax, get?_set_ne _ hmin, get?_set_ne _ hmean]
  · cases hagg; rfl

end Credit

end LendSmart

namespace LendSmart

namespace Credit

/-- Alignment: the frame agrees with the input `X` on every column the
taxonomy names. Since the engineering pass only ever writes derived-shaped
columns, every intermediate frame stays aligned. -/
def aligned (tax : Taxonomy) (X f : Frame) : Prop :=
  ∀ n ∈ taxNames tax, f.get? n = X.get? n

theorem fresh_taxName {tax : Taxonomy}
    (hfresh : ∀ n ∈ taxNames tax, freshName n = true)
    {w : String} (hw : w ∈ allCands tax) :
    ∀ n ∈ taxNames tax, ¬ w = n :=
  fun n hn => fresh_ne_cand (hfresh n hn) hw

theorem interCands_sub_allCands {tax : Taxonomy} {w : String}
    (h : w ∈ interCands tax) : w ∈ allCands tax := by
  unfold allCands
  simp only [List.mem_append]
  exact Or.inl (Or.inl (Or.inl h))

theorem squaredCands_sub_allCands {tax : Taxonomy} {w : String}
    (h : w ∈ squaredCands tax) : w ∈ allCands tax := by
  unfold allCands
  simp only [List.mem_append]
  exact Or.inl (Or.inl (Or.inr h))

theorem aggCols_sub_allCands {tax : Taxonomy} {w : String}
    (h : w ∈ aggColNames) : w ∈ allCands tax := by
  unfold allCands
  simp only [List.mem_append]
  exact Or.inl (Or.inr h)

theorem logCands_sub_allCands {tax : Taxonomy} {w : String}
    (h : w ∈ logCands tax) : w ∈ allCands tax := by
  unfold allCands
  simp only [List.mem_append]
  exact Or.inr h

theorem interactionPhase_aligned {tax : Taxonomy} {X f : Frame}
    (hfresh : ∀ n ∈ taxNames tax, freshName n = true)
    (hal : aligned tax X f) : aligned tax X (interactionPhase tax f) := by
  intro n hn
  rw [interactionPhase_get?_outside
    (fun w hw => fresh_taxName hfresh (interCands_sub_allCands hw) n hn)]
  exact hal n hn

theorem squaredPhase_aligned {tax : Taxonomy} {X f : Frame}
    (hfresh : ∀ n ∈ taxNames tax, freshName n = true)
    (hal : aligned tax X f) : aligned tax X (squaredPhase tax f) := by
  intro n hn
  rw [squaredPhase_get?_outside
    (fun w hw => fresh_taxName hfresh (squaredCands_sub_allCands hw) n hn)]
  exact hal n hn

theorem aggPhase_aligned {tax : Taxonomy} {X f g : Frame}
    (hfresh : ∀ n ∈ taxNames tax, freshName n = true)
    (hok : aggPhase tax f = .ok g)
    (hal : aligned tax X f) : aligned tax X g := by
  intro n hn
  rw [aggPhase_get?_outside hok
    (fun w hw => fresh_taxName hfresh (aggCols_sub_allCands hw) n hn)]
  exact hal n hn

theorem skewPhase_aligned {log log1p : ℚ → ℚ} {tax : Taxonomy} {X f : Frame}
    (hfresh : ∀ n ∈ taxNames tax, freshName n = true)
    (hal : aligned tax X f) :
    aligned tax X (skewPhase log log1p tax f) := by
  intro n hn
  rw [skewPhase_get?_outside
    (fun w hw => fresh_taxName hfresh (logCands_sub_allCands hw) n hn)]
  exact hal n hn

theorem cand_not_important {tax : Taxonomy}
    (hfresh : ∀ n ∈ taxNames tax, freshName n = true)
    {w : String} (hw : w ∈ allCands tax) :
    importantPred tax w = false := by
  unfold importantPred
  rw [Bool.and_eq_false_iff]
  left
  by_cases hmem : w ∈ tax.numeric
  · have hn : freshName w = true := hfresh w (by
      unfold taxNames
      exact List.mem_append_right _ hmem)
    exact absurd rfl (fresh_ne_cand hn hw)
  · rw [← Bool.not_eq_true]
    intro hc
    exact hmem (by simpa using hc)

theorem squaredStep_filter_names {f : Frame} {c : String}
    {p : String → Bool} (h : p (c ++ "_squared") = false) :
    (squaredStep f c).names.filter p = f.names.filter p := by
  unfold squaredStep
  cases f.get? c with
  | none => rfl
  | some col => exact filter_names_set _ _ _ p h

theorem squaredPhase_filter_names {tax : Taxonomy} {f : Frame}
    {p : String → Bool} (h : ∀ w ∈ squaredCands tax, p w = false) :
    (squaredPhase tax f).names.filter p = f.names.filter p := by
  unfold squaredPhase
  exact foldl_obs_eq (fun g => g.names.filter p) _ _
    (fun f' c hc => squaredStep_filter_names
      (h _ (by
        unfold squaredCands
        rw [List.mem_map]
        exact ⟨c, mem_of_mem_importantList hc, rfl⟩))) f

theorem skewStep_filter_names {log log1p : ℚ → ℚ} {f : Frame} {c : String}
    {p : String → Bool} (h : p (c ++ "_log") = false) :
    (skewStep log log1p f c).names.filter p = f.names.filter p := by
  unfold skewStep
  cases f.get? c with
  | none => rfl
  | some col =>
    dsimp only
    by_cases h1 : col.vals.all (fun v => decide (0 < v)) = true
    · rw [if_pos h1]
      exact filter_names_set _ _ _ p h
    · rw [if_neg h1]
      by_cases h2 : col.vals.all (fun v => decide (0 ≤ v)) = true
      · rw [if_pos h2]
        exact filter_names_set _ _ _ p h
      · rw [if_neg h2]

theorem skewPhase_filter_names {log log1p : ℚ → ℚ} {tax : Taxonomy}
    {f : Frame} {p : String → Bool}
    (h : ∀ w ∈ logCands tax, p w = false) :
    (skewPhase log log1p tax f).names.filter p = f.names.filter p := by
  unfold skewPhase
  apply foldl_obs_eq (fun g => g.names.filter p)
  intro f' c hc
  exact skewStep_filter_names (h _ (by
    unfold logCands
    rw [List.mem_map]
    exact ⟨c, List.mem_of_mem_filter hc, rfl⟩))

theorem aggPhase_filter_names {tax : Taxonomy} {f g : Frame}
    {p : String → Bool} (hok : aggPhase tax f = .ok g)
    (h : ∀ w ∈ aggColNames, p w = false) :
    g.names.filter p = f.names.filter p := by
  have hmean : p "alt_data_score_mean" = false := h _ (by simp [aggColNames])
  have hmin : p "alt_data_score_min" = false := h _ (by simp [aggColNames])
  have hmax : p "alt_data_score_max" = false := h _ (by simp [aggColNames])
  have hrange : p "alt_data_score_range" = false := h _ (by simp [aggColNames])
  unfold aggPhase at hok
  split at hok
  · split at hok
    · exact absurd hok (by simp)
    · split at hok
      · cases hok; rfl
      · dsimp only at hok
        split at hok
        · cases hok
          rw [filter_names_set _ _ _ p hrange, filter_names_set _ _ _ p hmax,
            filter_names_set _ _ _ p hmin, filter_names_set _ _ _ p hmean]
        · cases hok
          rw [filter_names_set _ _ _ p hmax, filter_names_set _ _ _ p hmin,
            filter_names_set _ _ _ p hmean]
  · cases hok; rfl

theorem altScoreCols_congr {f g : Frame} :
    ∀ {als : List String}, (∀ c ∈ als, f.get? c = g.get? c) →
      altScoreCols f als = altScoreCols g als := by
  intro als
  induction als with
  | nil => intro _; rfl
  | cons c rest ih =>
    intro h
    unfold altScoreCols
    rw [h c (List.mem_cons_self c rest),
      ih (fun c' hc' => h c' (List.mem_cons_of_mem c hc'))]

theorem altScoreCols_subset {f : Frame} :
    ∀ {als L : List String}, altScoreCols f als = .ok L →
      ∀ c ∈ L, c ∈ als := by
  intro als
  induction als with
  | nil =>
    intro L h c hc
    unfold altScoreCols at h
    cases h
    simp at hc
  | cons c0 rest ih =>
    intro L h c hc
    unfold altScoreCols at h
    split at h
    · split at h
      · exact absurd h (by simp)
      · split at h
        · exact absurd h (by simp)
        · rename_i r hr
          cases h
          split at hc
          · rw [List.mem_cons] at hc
            rcases hc with hc | hc
            · rw [hc]
              exact List.mem_cons_self c0 rest
            · exact List.mem_cons_of_mem c0 (ih hr c hc)
          · exact List.mem_cons_of_mem c0 (ih hr c hc)
    · exact List.mem_cons_of_mem c0 (ih h c hc)

end Credit

end LendSmart

namespace LendSmart

namespace Credit

theorem aligned_refl (tax : Taxonomy) (X : Frame) : aligned tax X X :=
  fun _ _ => rfl

theorem trad_mem_taxNames {tax : Taxonomy} {t : String}
    (ht : t ∈ tax.traditional.take 5) : t ∈ taxNames tax :=
  List.mem_append_left _ (List.mem_append_left _ (List.take_subset _ _ ht))

theorem alt_mem_taxNames {tax : Taxonomy} {a : String}
    (ha : a ∈ tax.alternative.take 5) : a ∈ taxNames tax :=
  List.mem_append_left _ (List.mem_append_right _ (List.take_subset _ _ ha))

theorem pairList_mem_elim {tax : Taxonomy} {t a : String}
    (h : (t, a) ∈ pairList tax) :
    t ∈ tax.traditional.take 5 ∧ a ∈ tax.alternative.take 5 := by
  unfold pairList at h
  rw [List.mem_flatMap] at h
  obtain ⟨t', ht', hmap⟩ := h
  rw [List.mem_map] at hmap
  obtain ⟨a', ha', heq⟩ := hmap
  have h1 : t' = t := congrArg Prod.fst heq
  have h2 : a' = a := congrArg Prod.snd heq
  subst h1
  subst h2
  exact ⟨ht', ha'⟩

theorem interCands_nodup {tax : Taxonomy} (h : (allCands tax).Nodup) :
    (interCands tax).Nodup := by
  unfold allCands at h
  exact h.of_append_left.of_append_left.of_append_left

/-- Within one interaction pair, the interaction and ratio names differ. -/
theorem iname_ne_rname {tax : Taxonomy} (h : (allCands tax).Nodup)
    {p : String × String} (hp : p ∈ pairList tax) :
    ¬ interName p.1 p.2 = ratioName p.1 p.2 := by
  have hI := interCands_nodup h
  unfold interCands at hI
  rw [List.nodup_flatMap] at hI
  have := hI.1 p hp
  simp at this
  exact this

/-- Across distinct interaction pairs, all four name pairs differ. -/
theorem cand_names_distinct {tax : Taxonomy} (h : (allCands tax).Nodup)
    {p q : String × String} (hp : p ∈ pairList tax) (hq : q ∈ pairList tax)
    (hne : p ≠ q) :
    ¬ interName p.1 p.2 = interName q.1 q.2 ∧
    ¬ interName p.1 p.2 = ratioName q.1 q.2 ∧
    ¬ ratioName p.1 p.2 = interName q.1 q.2 ∧
    ¬ ratioName p.1 p.2 = ratioName q.1 q.2 := by
  have hI := interCands_nodup h
  unfold interCands at hI
  rw [List.nodup_flatMap] at hI
  have hsym : Symmetric (List.Disjoint on
      fun p : String × String => [interName p.1 p.2, ratioName p.1 p.2]) :=
    fun _ _ hd => hd.symm
  have hd := hI.2.forall hsym hp hq hne
  have hdpq : ∀ ⦃x⦄, x ∈ [interName p.1 p.2, ratioName p.1 p.2] →
      x ∈ [interName q.1 q.2, ratioName q.1 q.2] → False := hd
  refine ⟨fun he => ?_, fun he => ?_, fun he => ?_, fun he => ?_⟩
  · exact @hdpq (interName p.1 p.2) (by simp) (by rw [he]; simp)
  · exact @hdpq (interName p.1 p.2) (by simp) (by rw [he]; simp)
  · exact @hdpq (ratioName p.1 p.2) (by simp) (by rw [he]; simp)
  · exact @hdpq (ratioName p.1 p.2) (by simp) (by rw [he]; simp)

/-- Pairwise disjointness of the four candidate-name families. -/
theorem cands_parts_disjoint {tax : Taxonomy} (h : (allCands tax).Nodup) :
    (interCands tax).Disjoint (squaredCands tax) ∧
    (interCands tax).Disjoint aggColNames ∧
    (interCands tax).Disjoint (logCands tax) ∧
    (squaredCands tax).Disjoint aggColNames ∧
    (squaredCands tax).Disjoint (logCands tax) ∧
    aggColNames.Disjoint (logCands tax) := by
  unfold allCands at h
  have dISA_L := List.disjoint_of_nodup_append h
  have h1 := h.of_append_left
  have dIS_A := List.disjoint_of_nodup_append h1
  have h2 := h1.of_append_left
  have dI_S := List.disjoint_of_nodup_append h2
  refine ⟨dI_S, ?_, ?_, ?_, ?_, ?_⟩
  · exact fun a ha hb => dIS_A (List.mem_append_left _ ha) hb
  · exact fun a ha hb =>
      dISA_L (List.mem_append_left _ (List.mem_append_left _ ha)) hb
  · exact fun a ha hb => dIS_A (List.mem_append_right _ ha) hb
  · exact fun a ha hb =>
      dISA_L (List.mem_append_left _ (List.mem_append_right _ ha)) hb
  · exact fun a ha hb => dISA_L (List.mem_append_right _ ha) hb

/-- The column the interaction write produces, as a function of the input
frame's columns. -/
def interColVal (ct ca : Col) : Col :=
  ⟨mulDtype ct.dtype ca.dtype, List.zipWith (· * ·) ct.vals ca.vals⟩

/-- The column the safe-ratio write produces. -/
def ratioColVal (ct ca : Col) : Col :=
  ⟨Dtype.float64, List.zipWith (· / ·) ct.vals ca.vals⟩

/-- The interaction-phase postcondition for one pair: whenever `X` offers
both columns with numeric dtypes, the interaction column is present with
the product values, and — when the alternative column is zero-free — the
ratio column with the quotient values. -/
def interRecordAt (X f : Frame) (p : String × String) : Prop :=
  ∀ ct ca, X.get? p.1 = some ct → X.get? p.2 = some ca →
    numericDtype ct.dtype = true → numericDtype ca.dtype = true →
    f.get? (interName p.1 p.2) = some (interColVal ct ca) ∧
    (ca.vals.all (fun v => decide (v ≠ 0)) = true →
      f.get? (ratioName p.1 p.2) = some (ratioColVal ct ca))

theorem interStep_eq_write {t a : String} {f : Frame} {ct ca : Col}
    (hgt : f.get? t = some ct) (hga : f.get? a = some ca)
    (hna : numericDtype ca.dtype = true) :
    interStep t a f =
      ratioStep t a (f.set (interName t a) (interColVal ct ca)) := by
  unfold interStep
  cases hga' : f.get? a with
  | none => rw [hga'] at hga; exact absurd hga (by simp)
  | some ca' =>
    rw [hga'] at hga
    injection hga with hga
    subst hga
    dsimp only
    rw [if_pos hna]
    cases hgt' : f.get? t with
    | none => rw [hgt'] at hgt; exact absurd hgt (by simp)
    | some ct' =>
      rw [hgt'] at hgt
      injection hgt with hgt
      subst hgt
      rfl

theorem ratioStep_eq_write {t a : String} {f1 : Frame} {ct1 ca1 : Col}
    (hgt : f1.get? t = some ct1) (hga : f1.get? a = some ca1)
    (hz : ca1.vals.all (fun v => decide (v ≠ 0)) = true) :
    ratioStep t a f1 = f1.set (ratioName t a) (ratioColVal ct1 ca1) := by
  unfold ratioStep
  cases hga' : f1.get? a with
  | none => rw [hga'] at hga; exact absurd hga (by simp)
  | some ca' =>
    rw [hga'] at hga
    injection hga with hga
    subst hga
    cases hgt' : f1.get? t with
    | none => rw [hgt'] at hgt; exact absurd hgt (by simp)
    | some ct' =>
      rw [hgt'] at hgt
      injection hgt with hgt
      subst hgt
      dsimp only
      rw [if_pos hz]
      rfl

theorem ratioStep_eq_skip {t a : String} {f1 : Frame} {ca1 : Col}
    (hga : f1.get? a = some ca1)
    (hz : ca1.vals.all (fun v => decide (v ≠ 0)) = false) :
    ratioStep t a f1 = f1 := by
  unfold ratioStep
  cases hga' : f1.get? a with
  | none => rfl
  | some ca' =>
    rw [hga'] at hga
    injection hga with hga
    subst hga
    cases f1.get? t with
    | none => rfl
    | some ct' =>
      dsimp only
      rw [if_neg (by rw [hz]; exact Bool.false_ne_true)]

end Credit

end LendSmart

namespace LendSmart

namespace Credit

theorem interStep_aligned {tax : Taxonomy} {X : Frame}
    (hfresh : ∀ n ∈ taxNames tax, freshName n = true)
    {t a : String} (hta : (t, a) ∈ pairList tax)
    {f : Frame} (hal : aligned tax X f) :
    aligned tax X (interStep t a f) := by
  intro n hn
  obtain ⟨ht5, ha5⟩ := pairList_mem_elim hta
  rw [interStep_get?_outside
    (fresh_taxName hfresh (interCands_sub_allCands (interName_mem_cands ht5 ha5)) n hn)
    (fresh_taxName hfresh (interCands_sub_allCands (ratioName_mem_cands ht5 ha5)) n hn)]
  exact hal n hn

/-- One interaction step establishes the record for its own pair, and
preserves it for every other pair. -/
theorem interStep_record {tax : Taxonomy} {X : Frame}
    (hfresh : ∀ n ∈ taxNames tax, freshName n = true)
    (hnodup : (allCands tax).Nodup)
    {t a : String} (hta : (t, a) ∈ pairList tax)
    {f : Frame} (hal : aligned tax X f)
    {q : String × String} (hq : q ∈ pairList tax)
    (hrec : ¬ q = (t, a) → interRecordAt X f q) :
    interRecordAt X (interStep t a f) q := by
  obtain ⟨ht5, ha5⟩ := pairList_mem_elim hta
  by_cases hqta : q = (t, a)
  · subst hqta
    intro ct ca hXt hXa hnt hna
    have hft : f.get? t = some ct := (hal t (trad_mem_taxNames ht5)).trans hXt
    have hfa : f.get? a = some ca := (hal a (alt_mem_taxNames ha5)).trans hXa
    rw [interStep_eq_write hft hfa hna]
    have hint : ¬ interName t a = t :=
      fresh_taxName hfresh (interCands_sub_allCands (interName_mem_cands ht5 ha5))
        t (trad_mem_taxNames ht5)
    have hina : ¬ interName t a = a :=
      fresh_taxName hfresh (interCands_sub_allCands (interName_mem_cands ht5 ha5))
        a (alt_mem_taxNames ha5)
    have hf1t : (f.set (interName t a) (interColVal ct ca)).get? t = some ct := by
      rw [get?_set_ne _ hint, hft]
    have hf1a : (f.set (interName t a) (interColVal ct ca)).get? a = some ca := by
      rw [get?_set_ne _ hina, hfa]
    have hf1i : (f.set (interName t a) (interColVal ct ca)).get? (interName t a)
        = some (interColVal ct ca) := get?_set_self _ _ _
    by_cases hz : ca.vals.all (fun v => decide (v ≠ 0)) = true
    · rw [ratioStep_eq_write hf1t hf1a hz]
      have hri : ¬ ratioName t a = interName t a :=
        fun he => iname_ne_rname hnodup hta he.symm
      constructor
      · rw [get?_set_ne _ hri]
        exact hf1i
      · intro _
        exact get?_set_self _ _ _
    · rw [ratioStep_eq_skip hf1a (Bool.eq_false_iff.mpr hz)]
      exact ⟨hf1i, fun hzz => absurd hzz hz⟩
  · have hrec' := hrec hqta
    intro ct ca hXt hXa hnt hna
    obtain ⟨hi, hr⟩ := hrec' ct ca hXt hXa hnt hna
    have hd := cand_names_distinct hnodup hta hq (fun he => hqta he.symm)
    constructor
    · rw [interStep_get?_outside hd.1 hd.2.2.1]
      exact hi
    · intro hz
      rw [interStep_get?_outside hd.2.1 hd.2.2.2]
      exact hr hz

/-- The inner fold over alternative features: alignment is preserved, every
previously recorded pair stays recorded, and every pair of the processed
list becomes recorded. -/
theorem interInner_record {tax : Taxonomy} {X : Frame}
    (hfresh : ∀ n ∈ taxNames tax, freshName n = true)
    (hnodup : (allCands tax).Nodup)
    {t : String} (ht5 : t ∈ tax.traditional.take 5) :
    ∀ (as : List String), (∀ a ∈ as, a ∈ tax.alternative.take 5) →
    ∀ (f : Frame) (S : String × String → Prop),
      aligned tax X f →
      (∀ q, S q → q ∈ pairList tax → interRecordAt X f q) →
      aligned tax X (as.foldl (fun f a => interStep t a f) f) ∧
      (∀ q, (S q ∨ ∃ a ∈ as, q = (t, a)) → q ∈ pairList tax →
        interRecordAt X (as.foldl (fun f a => interStep t a f) f) q) := by
  intro as
  induction as with
  | nil =>
    intro _ f S hal hS
    refine ⟨hal, fun q hq hqpl => ?_⟩
    rcases hq with hq | ⟨a, ha, _⟩
    · exact hS q hq hqpl
    · exact absurd ha (List.not_mem_nil a)
  | cons a rest ih =>
    intro hsub f S hal hS
    have hta : (t, a) ∈ pairList tax :=
      mem_pairList ht5 (hsub a (List.mem_cons_self a rest))
    have hal' : aligned tax X (interStep t a f) :=
      interStep_aligned hfresh hta hal
    have hS' : ∀ q, (S q ∨ q = (t, a)) → q ∈ pairList tax →
        interRecordAt X (interStep t a f) q := by
      intro q hq hqpl
      refine interStep_record hfresh hnodup hta hal hqpl (fun hne => ?_)
      rcases hq with hq | hq
      · exact hS q hq hqpl
      · exact absurd hq hne
    have hmain := ih (fun a' ha' => hsub a' (List.mem_cons_of_mem a ha'))
      (interStep t a f) (fun q => S q ∨ q = (t, a)) hal' hS'
    rw [List.foldl_cons]
    refine ⟨hmain.1, fun q hq hqpl => ?_⟩
    refine hmain.2 q ?_ hqpl
    rcases hq with hq | ⟨a', ha', he⟩
    · exact Or.inl (Or.inl hq)
    · rw [List.mem_cons] at ha'
      rcases ha' with ha' | ha'
      · exact Or.inl (Or.inr (by rw [he, ha']))
      · exact Or.inr ⟨a', ha', he⟩

/-- One outer interaction step records every pair formed from its
traditional feature, preserving alignment and earlier records. -/
theorem interOuterStep_record {tax : Taxonomy} {X : Frame}
    (hfresh : ∀ n ∈ taxNames tax, freshName n = true)
    (hnodup : (allCands tax).Nodup)
    {t : String} (ht5 : t ∈ tax.traditional.take 5)
    {f : Frame} {S : String × String → Prop}
    (hal : aligned tax X f)
    (hS : ∀ q, S q → q ∈ pairList tax → interRecordAt X f q) :
    aligned tax X (interOuterStep (tax.alternative.take 5) f t) ∧
    (∀ q, (S q ∨ ∃ a ∈ tax.alternative.take 5, q = (t, a)) →
      q ∈ pairList tax →
      interRecordAt X (interOuterStep (tax.alternative.take 5) f t) q) := by
  unfold interOuterStep
  cases hgt : f.get? t with
  | none =>
    refine ⟨hal, fun q hq hqpl => ?_⟩
    rcases hq with hq | ⟨a, _, he⟩
    · exact hS q hq hqpl
    · subst he
      intro ct ca hXt hXa hnt hna
      rw [hal t (trad_mem_taxNames ht5), hXt] at hgt
      exact absurd hgt (by simp)
  | some ct =>
    dsimp only
    by_cases hnum : numericDtype ct.dtype = true
    · rw [if_pos hnum]
      exact interInner_record hfresh hnodup ht5 (tax.alternative.take 5)
        (fun _ h => h) f S hal hS
    · rw [if_neg hnum]
      refine ⟨hal, fun q hq hqpl => ?_⟩
      rcases hq with hq | ⟨a, _, he⟩
      · exact hS q hq hqpl
      · subst he
        intro ct' ca hXt hXa hnt hna
        rw [hal t (trad_mem_taxNames ht5), hXt] at hgt
        injection hgt with hgt
        rw [hgt] at hnt
        exact absurd hnt hnum

end Credit

end LendSmart

namespace LendSmart

namespace Credit

theorem interOuter_record {tax : Taxonomy} {X : Frame}
    (hfresh : ∀ n ∈ taxNames tax, freshName n = true)
    (hnodup : (allCands tax).Nodup) :
    ∀ (ts : List String), (∀ t ∈ ts, t ∈ tax.traditional.take 5) →
    ∀ (f : Frame) (S : String × String → Prop),
      aligned tax X f →
      (∀ q, S q → q ∈ pairList tax → interRecordAt X f q) →
      aligned tax X (ts.foldl (interOuterStep (tax.alternative.take 5)) f) ∧
      (∀ q, (S q ∨ ∃ t ∈ ts, ∃ a ∈ tax.alternative.take 5, q = (t, a)) →
        q ∈ pairList tax →
        interRecordAt X (ts.foldl (interOuterStep (tax.alternative.take 5)) f) q) := by
  intro ts
  induction ts with
  | nil =>
    intro _ f S hal hS
    refine ⟨hal, fun q hq hqpl => ?_⟩
    rcases hq with hq | ⟨t, ht, _⟩
    · exact hS q hq hqpl
    · exact absurd ht (List.not_mem_nil t)
  | cons t rest ih =>
    intro hsub f S hal hS
    have ht5 : t ∈ tax.traditional.take 5 := hsub t (List.mem_cons_self t rest)
    have hstep := interOuterStep_record hfresh hnodup ht5 hal hS
    have hmain := ih (fun t' ht' => hsub t' (List.mem_cons_of_mem t ht'))
      (interOuterStep (tax.alternative.take 5) f t)
      (fun q => S q ∨ ∃ a ∈ tax.alternative.take 5, q = (t, a))
      hstep.1 hstep.2
    rw [List.foldl_cons]
    refine ⟨hmain.1, fun q hq hqpl => ?_⟩
    refine hmain.2 q ?_ hqpl
    rcases hq with hq | ⟨t', ht', a, ha, he⟩
    · exact Or.inl (Or.inl hq)
    · rw [List.mem_cons] at ht'
      rcases ht' with ht' | ht'
      · exact Or.inl (Or.inr ⟨a, ha, by rw [he, ht']⟩)
      · exact Or.inr ⟨t', ht', a, ha, he⟩

/-- Pass one of the interaction phase: the result is aligned with the input
and carries the full interaction record. -/
theorem interactionPhase_record {tax : Taxonomy} {X : Frame}
    (hfresh : ∀ n ∈ taxNames tax, freshName n = true)
    (hnodup : (allCands tax).Nodup) :
    aligned tax X (interactionPhase tax X) ∧
    ∀ q ∈ pairList tax, interRecordAt X (interactionPhase tax X) q := by
  unfold interactionPhase
  split
  · have hmain := interOuter_record hfresh hnodup (tax.traditional.take 5)
      (fun _ h => h) X (fun _ => False) (aligned_refl tax X)
      (fun q hq _ => absurd hq id)
    refine ⟨hmain.1, fun q hq => ?_⟩
    refine hmain.2 q (Or.inr ?_) hq
    obtain ⟨t, a⟩ := q
    obtain ⟨ht5, ha5⟩ := pairList_mem_elim hq
    exact ⟨t, ht5, a, ha5, rfl⟩
  · rename_i hguard
    have hempty : tax.traditional = [] ∨ tax.alternative = [] := by
      rcases Bool.and_eq_false_iff.mp (Bool.eq_false_iff.mpr hguard) with h | h
      · left
        exact List.isEmpty_iff.mp (by simpa using h)
      · right
        exact List.isEmpty_iff.mp (by simpa using h)
    have hpl : pairList tax = [] := by
      rcases hempty with h | h
      · unfold pairList
        rw [h]
        rfl
      · unfold pairList
        rw [h]
        simp
    refine ⟨aligned_refl tax X, fun q hq => ?_⟩
    rw [hpl] at hq
    exact absurd hq (List.not_mem_nil q)

end Credit

end LendSmart

namespace LendSmart

namespace Credit

/-- A fold whose every step fixes the start frame returns it unchanged. -/
theorem foldl_fixed {β : Type} (g : Frame → β → Frame) :
    ∀ (l : List β) (f : Frame), (∀ b ∈ l, g f b = f) → l.foldl g f = f := by
  intro l
  induction l with
  | nil => intro f _; rfl
  | cons b rest ih =>
    intro f h
    rw [List.foldl_cons, h b (List.mem_cons_self b rest),
      ih f (fun b' hb' => h b' (List.mem_cons_of_mem b hb'))]

/-- On a frame already aligned and carrying the pair's record, an
interaction step only re-writes the values it previously wrote. -/
theorem interStep_noop {tax : Taxonomy} {X Y : Frame}
    {t a : String} (hta : (t, a) ∈ pairList tax)
    (hal : aligned tax X Y)
    (hrec : interRecordAt X Y (t, a))
    (hnt : ∀ ct, Y.get? t = some ct → numericDtype ct.dtype = true) :
    interStep t a Y = Y := by
  unfold interStep
  cases hga : Y.get? a with
  | none => rfl
  | some ca =>
    dsimp only
    by_cases hna : numericDtype ca.dtype = true
    · rw [if_pos hna]
      cases hgt : Y.get? t with
      | none => rfl
      | some ct =>
        dsimp only
        obtain ⟨ht5, ha5⟩ := pairList_mem_elim hta
        have hXt : X.get? t = some ct :=
          (hal t (trad_mem_taxNames ht5)).symm.trans hgt
        have hXa : X.get? a = some ca :=
          (hal a (alt_mem_taxNames ha5)).symm.trans hga
        obtain ⟨hi, hr⟩ := hrec ct ca hXt hXa (hnt ct hgt) hna
        have h1 : Y.set (interName t a)
            ⟨mulDtype ct.dtype ca.dtype, List.zipWith (· * ·) ct.vals ca.vals⟩
            = Y := set_eq_of_get? _ _ _ hi
        rw [h1]
        by_cases hz : ca.vals.all (fun v => decide (v ≠ 0)) = true
        · rw [ratioStep_eq_write hgt hga hz]
          exact set_eq_of_get? _ _ _ (hr hz)
        · exact ratioStep_eq_skip hga (Bool.eq_false_iff.mpr hz)
    · rw [if_neg hna]

theorem interOuterStep_noop {tax : Taxonomy} {X Y : Frame}
    {t : String} (ht5 : t ∈ tax.traditional.take 5)
    (hal : aligned tax X Y)
    (hrec : ∀ q ∈ pairList tax, interRecordAt X Y q) :
    interOuterStep (tax.alternative.take 5) Y t = Y := by
  unfold interOuterStep
  cases hgt : Y.get? t with
  | none => rfl
  | some ct =>
    dsimp only
    by_cases hnum : numericDtype ct.dtype = true
    · rw [if_pos hnum]
      apply foldl_fixed
      intro a ha
      have hta : (t, a) ∈ pairList tax := mem_pairList ht5 ha
      refine interStep_noop hta hal (hrec _ hta) (fun ct' h => ?_)
      have he : ct = ct' := by
        have := hgt.symm.trans h
        injection this
      rw [← he]
      exact hnum
    · rw [if_neg hnum]

/-- Pass two of the interaction phase is the identity on a frame that is
aligned with `X` and carries the full interaction record. -/
theorem interactionPhase_noop {tax : Taxonomy} {X Y : Frame}
    (hal : aligned tax X Y)
    (hrec : ∀ q ∈ pairList tax, interRecordAt X Y q) :
    interactionPhase tax Y = Y := by
  unfold interactionPhase
  split
  · apply foldl_fixed
    intro t ht
    exact interOuterStep_noop ht hal hrec
  · rfl

end Credit

end LendSmart

namespace LendSmart

namespace Credit

theorem num_mem_taxNames {tax : Taxonomy} {c : String}
    (hc : c ∈ tax.numeric) : c ∈ taxNames tax :=
  List.mem_append_right _ hc

theorem altFull_mem_taxNames {tax : Taxonomy} {a : String}
    (ha : a ∈ tax.alternative) : a ∈ taxNames tax :=
  List.mem_append_left _ (List.mem_append_right _ ha)

/-- The squared-phase postcondition for one numeric feature. -/
def squaredRecordAt (X f : Frame) (c : String) : Prop :=
  ∀ col, X.get? c = some col →
    f.get? (c ++ "_squared") = some ⟨col.dtype, col.vals.map (fun v => v ^ 2)⟩

theorem squaredStep_aligned {tax : Taxonomy} {X : Frame}
    (hfresh : ∀ n ∈ taxNames tax, freshName n = true)
    {c : String} (hcn : c ∈ tax.numeric)
    {f : Frame} (hal : aligned tax X f) :
    aligned tax X (squaredStep f c) := by
  intro n hn
  rw [squaredStep_get?_outside
    (fresh_taxName hfresh (squaredCands_sub_allCands (by
      unfold squaredCands
      rw [List.mem_map]
      exact ⟨c, hcn, rfl⟩)) n hn)]
  exact hal n hn

theorem squaredStep_record {tax : Taxonomy} {X : Frame}
    (hfresh : ∀ n ∈ taxNames tax, freshName n = true)
    {c : String} (hcn : c ∈ tax.numeric)
    {f : Frame} (hal : aligned tax X f)
    {q : String} (hrec : ¬ q = c → squaredRecordAt X f q) :
    squaredRecordAt X (squaredStep f c) q := by
  by_cases hqc : q = c
  · subst hqc
    intro col hXc
    have hfc : f.get? q = some col := (hal q (num_mem_taxNames hcn)).trans hXc
    unfold squaredStep
    rw [hfc]
    exact get?_set_self _ _ _
  · intro col hXc
    rw [squaredStep_get?_outside
      (fun he => hqc (string_append_right_cancel he).symm)]
    exact hrec hqc col hXc

theorem squaredFold_record {tax : Taxonomy} {X : Frame}
    (hfresh : ∀ n ∈ taxNames tax, freshName n = true) :
    ∀ (cs : List String), (∀ c ∈ cs, c ∈ tax.numeric) →
    ∀ (f : Frame) (S : String → Prop),
      aligned tax X f →
      (∀ q, S q → squaredRecordAt X f q) →
      aligned tax X (cs.foldl squaredStep f) ∧
      (∀ q, (S q ∨ q ∈ cs) → squaredRecordAt X (cs.foldl squaredStep f) q) := by
  intro cs
  induction cs with
  | nil =>
    intro _ f S hal hS
    refine ⟨hal, fun q hq => ?_⟩
    rcases hq with hq | hq
    · exact hS q hq
    · exact absurd hq (List.not_mem_nil q)
  | cons c rest ih =>
    intro hsub f S hal hS
    have hcn : c ∈ tax.numeric := hsub c (List.mem_cons_self c rest)
    have hal' : aligned tax X (squaredStep f c) :=
      squaredStep_aligned hfresh hcn hal
    have hS' : ∀ q, (S q ∨ q = c) → squaredRecordAt X (squaredStep f c) q := by
      intro q hq
      refine squaredStep_record hfresh hcn hal (fun hne => ?_)
      rcases hq with hq | hq
      · exact hS q hq
      · exact absurd hq hne
    have hmain := ih (fun c' hc' => hsub c' (List.mem_cons_of_mem c hc'))
      (squaredStep f c) (fun q => S q ∨ q = c) hal' hS'
    rw [List.foldl_cons]
    refine ⟨hmain.1, fun q hq => ?_⟩
    refine hmain.2 q ?_
    rcases hq with hq | hq
    · exact Or.inl (Or.inl hq)
    · rw [List.mem_cons] at hq
      rcases hq with hq | hq
      · exact Or.inl (Or.inr hq)
      · exact Or.inr hq

/-- Pass one of the squared phase: alignment is preserved and every entry
of the frame's important list becomes recorded. -/
theorem squaredPhase_record {tax : Taxonomy} {X f : Frame}
    (hfresh : ∀ n ∈ taxNames tax, freshName n = true)
    (hal : aligned tax X f) :
    aligned tax X (squaredPhase tax f) ∧
    ∀ c ∈ (f.names.filter (importantPred tax)).take 5,
      squaredRecordAt X (squaredPhase tax f) c := by
  unfold squaredPhase
  have hmain := squaredFold_record hfresh
    ((f.names.filter (importantPred tax)).take 5)
    (fun _ hc => mem_of_mem_importantList hc) f (fun _ => False) hal
    (fun q hq => absurd hq id)
  exact ⟨hmain.1, fun c hc => hmain.2 c (Or.inr hc)⟩

theorem squaredStep_noop {tax : Taxonomy} {X Y : Frame}
    {c : String} (hcn : c ∈ tax.numeric)
    (hal : aligned tax X Y) (hrec : squaredRecordAt X Y c) :
    squaredStep Y c = Y := by
  unfold squaredStep
  cases hgc : Y.get? c with
  | none => rfl
  | some col =>
    dsimp only
    have hXc : X.get? c = some col :=
      (hal c (num_mem_taxNames hcn)).symm.trans hgc
    exact set_eq_of_get? _ _ _ (hrec col hXc)

/-- Pass two of the squared phase is the identity on a frame that is
aligned and carries the record for its own important list. -/
theorem squaredPhase_noop {tax : Taxonomy} {X Y : Frame}
    (hal : aligned tax X Y)
    (hrec : ∀ c ∈ (Y.names.filter (importantPred tax)).take 5,
      squaredRecordAt X Y c) :
    squaredPhase tax Y = Y := by
  unfold squaredPhase
  apply foldl_fixed
  intro c hc
  exact squaredStep_noop (mem_of_mem_importantList hc) hal (hrec c hc)

end Credit

end LendSmart

namespace LendSmart

namespace Credit

/-- Writing under a name absent from the selected columns leaves the
selected-column list unchanged. -/
theorem aggL_set (f : Frame) (w : String) (col : Col) {altScores : List String}
    (h : ∀ c ∈ altScores, ¬ w = c) :
    altScores.filterMap (fun c => (f.set w col).get? c) =
      altScores.filterMap (fun c => f.get? c) :=
  List.filterMap_congr (fun c hc => get?_set_ne _ (h c hc) _)

/-- Pass one of the aggregation phase, active case: the four aggregate
columns of the result hold the row-wise mean/min/max/range of the selected
alternative-score columns of the input frame. -/
theorem aggPhase_ok_lookup {tax : Taxonomy} {f g : Frame}
    {altScores : List String}
    (hok : aggPhase tax f = .ok g)
    (hlen : 1 < tax.alternative.length)
    (hsc : altScoreCols f tax.alternative = .ok altScores)
    (hemp : altScores.isEmpty = false)
    (hfa : ∀ c ∈ altScores, freshName c = true) :
    g.get? "alt_data_score_mean" = some ⟨Dtype.float64,
      rowwise qmean f.nrows (altScores.filterMap (fun c => f.get? c))⟩ ∧
    g.get? "alt_data_score_min" = some ⟨Dtype.float64,
      rowwise qminL f.nrows (altScores.filterMap (fun c => f.get? c))⟩ ∧
    g.get? "alt_data_score_max" = some ⟨Dtype.float64,
      rowwise qmaxL f.nrows (altScores.filterMap (fun c => f.get? c))⟩ ∧
    g.get? "alt_data_score_range" = some ⟨Dtype.float64,
      List.zipWith (· - ·)
        (rowwise qmaxL f.nrows (altScores.filterMap (fun c => f.get? c)))
        (rowwise qminL f.nrows (altScores.filterMap (fun c => f.get? c)))⟩ := by
  have hm : ∀ c ∈ altScores, ¬ "alt_data_score_mean" = c := fun c hc =>
    fresh_ne_cand (hfa c hc) (@aggCols_sub_allCands tax _ (by simp [aggColNames]))
  have hmi : ∀ c ∈ altScores, ¬ "alt_data_score_min" = c := fun c hc =>
    fresh_ne_cand (hfa c hc) (@aggCols_sub_allCands tax _ (by simp [aggColNames]))
  unfold aggPhase at hok
  rw [if_pos hlen, hsc] at hok
  dsimp only at hok
  rw [if_neg (by rw [hemp]; exact Bool.false_ne_true)] at hok
  rw [get?_set_ne _ (show ¬ "alt_data_score_max" = "alt_data_score_min" by decide)] at hok
  rw [get?_set_self] at hok
  rw [get?_set_self] at hok
  dsimp only at hok
  injection hok with hok
  subst hok
  refine ⟨?_, ?_, ?_, ?_⟩
  · rw [get?_set_ne _ (show ¬ "alt_data_score_range" = "alt_data_score_mean" by decide),
      get?_set_ne _ (show ¬ "alt_data_score_max" = "alt_data_score_mean" by decide),
      get?_set_ne _ (show ¬ "alt_data_score_min" = "alt_data_score_mean" by decide),
      get?_set_self]
  · rw [get?_set_ne _ (show ¬ "alt_data_score_range" = "alt_data_score_min" by decide),
      get?_set_ne _ (show ¬ "alt_data_score_max" = "alt_data_score_min" by decide),
      get?_set_self, aggL_set _ _ _ hm]
    rfl
  · rw [get?_set_ne _ (show ¬ "alt_data_score_range" = "alt_data_score_max" by decide),
      get?_set_self, aggL_set _ _ _ hmi, aggL_set _ _ _ hm]
    rfl
  · rw [get?_set_self, aggL_set _ _ _ hmi, aggL_set _ _ _ hm]
    rfl

end Credit

end LendSmart

namespace LendSmart

namespace Credit

/-- Pass two of the aggregation phase succeeds and is the identity on a
frame aligned with the input that already carries pass one's aggregate
columns. -/
theorem aggPhase_pass2 {tax : Taxonomy} {X f g Y : Frame}
    (hfresh : ∀ n ∈ taxNames tax, freshName n = true)
    (hok : aggPhase tax f = .ok g)
    (haf : aligned tax X f) (haY : aligned tax X Y)
    (hnr : Y.nrows = f.nrows)
    (hagg : ∀ w ∈ aggColNames, Y.get? w = g.get? w) :
    aggPhase tax Y = .ok Y := by
  have hYf : ∀ c ∈ tax.alternative, Y.get? c = f.get? c := fun c hc =>
    (haY c (altFull_mem_taxNames hc)).trans (haf c (altFull_mem_taxNames hc)).symm
  unfold aggPhase
  by_cases hlen : 1 < tax.alternative.length
  · rw [if_pos hlen, altScoreCols_congr hYf]
    cases hsc : altScoreCols f tax.alternative with
    | error e =>
      unfold aggPhase at hok
      rw [if_pos hlen, hsc] at hok
      exact absurd hok (by simp)
    | ok altScores =>
      dsimp only
      by_cases hemp : altScores.isEmpty = true
      · rw [if_pos hemp]
      · rw [if_neg hemp]
        have hemp' : altScores.isEmpty = false := Bool.eq_false_iff.mpr hemp
        have hfa : ∀ c ∈ altScores, freshName c = true := fun c hc =>
          hfresh c (altFull_mem_taxNames (altScoreCols_subset hsc c hc))
        obtain ⟨hgmean, hgmin, hgmax, hgrange⟩ :=
          aggPhase_ok_lookup hok hlen hsc hemp' hfa
        have hLY : altScores.filterMap (fun c => Y.get? c) =
            altScores.filterMap (fun c => f.get? c) :=
          List.filterMap_congr (fun c hc => hYf c (altScoreCols_subset hsc c hc))
        have e1 : Y.set "alt_data_score_mean" ⟨Dtype.float64,
            rowwise qmean Y.nrows (altScores.filterMap (fun c => Y.get? c))⟩ = Y := by
          apply set_eq_of_get?
          rw [hagg _ (by simp [aggColNames]), hgmean, hLY, hnr]
        rw [e1]
        have e2 : Y.set "alt_data_score_min" ⟨Dtype.float64,
            rowwise qminL Y.nrows (altScores.filterMap (fun c => Y.get? c))⟩ = Y := by
          apply set_eq_of_get?
          rw [hagg _ (by simp [aggColNames]), hgmin, hLY, hnr]
        rw [e2]
        have e3 : Y.set "alt_data_score_max" ⟨Dtype.float64,
            rowwise qmaxL Y.nrows (altScores.filterMap (fun c => Y.get? c))⟩ = Y := by
          apply set_eq_of_get?
          rw [hagg _ (by simp [aggColNames]), hgmax, hLY, hnr]
        rw [e3]
        rw [show Y.get? "alt_data_score_max" = some ⟨Dtype.float64,
            rowwise qmaxL f.nrows (altScores.filterMap (fun c => f.get? c))⟩ from
          (hagg _ (by simp [aggColNames])).trans hgmax]
        rw [show Y.get? "alt_data_score_min" = some ⟨Dtype.float64,
            rowwise qminL f.nrows (altScores.filterMap (fun c => f.get? c))⟩ from
          (hagg _ (by simp [aggColNames])).trans hgmin]
        dsimp only
        rw [set_eq_of_get? _ _ _ ((hagg _ (by simp [aggColNames])).trans hgrange)]
  · rw [if_neg hlen]

end Credit

end LendSmart

namespace LendSmart

namespace Credit

/-- The skew-phase postcondition for one numeric feature. -/
def skewRecordAt (log log1p : ℚ → ℚ) (X f : Frame) (c : String) : Prop :=
  ∀ col, X.get? c = some col →
    (col.vals.all (fun v => decide (0 < v)) = true →
      f.get? (c ++ "_log") = some ⟨Dtype.float64, col.vals.map log⟩) ∧
    (col.vals.all (fun v => decide (0 < v)) = false →
      col.vals.all (fun v => decide (0 ≤ v)) = true →
      f.get? (c ++ "_log") = some ⟨Dtype.float64, col.vals.map log1p⟩)

theorem skewStep_aligned {log log1p : ℚ → ℚ} {tax : Taxonomy} {X : Frame}
    (hfresh : ∀ n ∈ taxNames tax, freshName n = true)
    {c : String} (hcn : c ∈ tax.numeric)
    {f : Frame} (hal : aligned tax X f) :
    aligned tax X (skewStep log log1p f c) := by
  intro n hn
  rw [skewStep_get?_outside
    (fresh_taxName hfresh (logCands_sub_allCands (by
      unfold logCands
      rw [List.mem_map]
      exact ⟨c, hcn, rfl⟩)) n hn)]
  exact hal n hn

theorem skewStep_record {log log1p : ℚ → ℚ} {tax : Taxonomy} {X : Frame}
    {c : String} (hcn : c ∈ tax.numeric)
    {f : Frame} (hal : aligned tax X f)
    {q : String} (hrec : ¬ q = c → skewRecordAt log log1p X f q) :
    skewRecordAt log log1p X (skewStep log log1p f c) q := by
  by_cases hqc : q = c
  · subst hqc
    intro col hXc
    have hfc : f.get? q = some col := (hal q (num_mem_taxNames hcn)).trans hXc
    unfold skewStep
    rw [hfc]
    dsimp only
    by_cases h1 : col.vals.all (fun v => decide (0 < v)) = true
    · rw [if_pos h1]
      constructor
      · intro _
        exact get?_set_self _ _ _
      · intro h1f _
        rw [h1] at h1f
        exact Bool.noConfusion h1f
    · rw [if_neg h1]
      by_cases h2 : col.vals.all (fun v => decide (0 ≤ v)) = true
      · rw [if_pos h2]
        constructor
        · intro h1t
          exact absurd h1t h1
        · intro _ _
          exact get?_set_self _ _ _
      · rw [if_neg h2]
        constructor
        · intro h1t
          exact absurd h1t h1
        · intro _ h2t
          exact absurd h2t h2
  · intro col hXc
    have hne : ¬ c ++ "_log" = q ++ "_log" :=
      fun he => hqc (string_append_right_cancel he).symm
    constructor
    · intro h1
      rw [skewStep_get?_outside hne]
      exact ((hrec hqc) col hXc).1 h1
    · intro h1 h2
      rw [skewStep_get?_outside hne]
      exact ((hrec hqc) col hXc).2 h1 h2

theorem skewFold_record {log log1p : ℚ → ℚ} {tax : Taxonomy} {X : Frame}
    (hfresh : ∀ n ∈ taxNames tax, freshName n = true) :
    ∀ (cs : List String), (∀ c ∈ cs, c ∈ tax.numeric) →
    ∀ (f : Frame) (S : String → Prop),
      aligned tax X f →
      (∀ q, S q → skewRecordAt log log1p X f q) →
      aligned tax X (cs.foldl (skewStep log log1p) f) ∧
      (∀ q, (S q ∨ q ∈ cs) →
        skewRecordAt log log1p X (cs.foldl (skewStep log log1p) f) q) := by
  intro cs
  induction cs with
  | nil =>
    intro _ f S hal hS
    refine ⟨hal, fun q hq => ?_⟩
    rcases hq with hq | hq
    · exact hS q hq
    · exact absurd hq (List.not_mem_nil q)
  | cons c rest ih =>
    intro hsub f S hal hS
    have hcn : c ∈ tax.numeric := hsub c (List.mem_cons_self c rest)
    have hal' : aligned tax X (skewStep log log1p f c) :=
      skewStep_aligned hfresh hcn hal
    have hS' : ∀ q, (S q ∨ q = c) →
        skewRecordAt log log1p X (skewStep log log1p f c) q := by
      intro q hq
      refine skewStep_record hcn hal (fun hne => ?_)
      rcases hq with hq | hq
      · exact hS q hq
      · exact absurd hq hne
    have hmain := ih (fun c' hc' => hsub c' (List.mem_cons_of_mem c hc'))
      (skewStep log log1p f c) (fun q => S q ∨ q = c) hal' hS'
    rw [List.foldl_cons]
    refine ⟨hmain.1, fun q hq => ?_⟩
    refine hmain.2 q ?_
    rcases hq with hq | hq
    · exact Or.inl (Or.inl hq)
    · rw [List.mem_cons] at hq
      rcases hq with hq | hq
      · exact Or.inl (Or.inr hq)
      · exact Or.inr hq

/-- Pass one of the skew phase: alignment is preserved and every feature
of the frame's skewed list becomes recorded. -/
theorem skewPhase_record {log log1p : ℚ → ℚ} {tax : Taxonomy} {X f : Frame}
    (hfresh : ∀ n ∈ taxNames tax, freshName n = true)
    (hal : aligned tax X f) :
    aligned tax X (skewPhase log log1p tax f) ∧
    ∀ c ∈ tax.numeric.filter (fun c =>
        match f.get? c with
        | some col => skewGtOne col.vals
        | none => false),
      skewRecordAt log log1p X (skewPhase log log1p tax f) c := by
  unfold skewPhase
  have hmain := @skewFold_record log log1p tax X hfresh
    (tax.numeric.filter (fun c =>
      match f.get? c with
      | some col => skewGtOne col.vals
      | none => false))
    (fun _ hc => List.mem_of_mem_filter hc) f (fun _ => False) hal
    (fun q hq => absurd hq id)
  exact ⟨hmain.1, fun c hc => hmain.2 c (Or.inr hc)⟩

theorem skewStep_noop {log log1p : ℚ → ℚ} {tax : Taxonomy} {X Y : Frame}
    {c : String} (hcn : c ∈ tax.numeric)
    (hal : aligned tax X Y) (hrec : skewRecordAt log log1p X Y c) :
    skewStep log log1p Y c = Y := by
  unfold skewStep
  cases hgc : Y.get? c with
  | none => rfl
  | some col =>
    dsimp only
    have hXc : X.get? c = some col :=
      (hal c (num_mem_taxNames hcn)).symm.trans hgc
    by_cases h1 : col.vals.all (fun v => decide (0 < v)) = true
    · rw [if_pos h1]
      exact set_eq_of_get? _ _ _ ((hrec col hXc).1 h1)
    · rw [if_neg h1]
      by_cases h2 : col.vals.all (fun v => decide (0 ≤ v)) = true
      · rw [if_pos h2]
        exact set_eq_of_get? _ _ _
          ((hrec col hXc).2 (Bool.eq_false_iff.mpr h1) h2)
      · rw [if_neg h2]

/-- Pass two of the skew phase is the identity on a frame aligned with the
input that carries the record for its own skewed list. -/
theorem skewPhase_noop {log log1p : ℚ → ℚ} {tax : Taxonomy} {X Y : Frame}
    (hal : aligned tax X Y)
    (hrec : ∀ c ∈ tax.numeric.filter (fun c =>
        match Y.get? c with
        | some col => skewGtOne col.vals
        | none => false),
      skewRecordAt log log1p X Y c) :
    skewPhase log log1p tax Y = Y := by
  unfold skewPhase
  apply foldl_fixed
  intro c hc
  exact skewStep_noop (List.mem_of_mem_filter hc) hal (hrec c hc)

end Credit

end LendSmart


namespace LendSmart

namespace Credit

theorem pairList_mem_elim2 {tax : Taxonomy} {q : String × String}
    (h : q ∈ pairList tax) :
    q.1 ∈ tax.traditional.take 5 ∧ q.2 ∈ tax.alternative.take 5 := by
  obtain ⟨t, a⟩ := q
  exact pairList_mem_elim h

end Credit

/-- C5: feature engineering is idempotent for a fixed taxonomy state:
when the taxonomy's column names are fresh (they carry none of the derived
columns' name shapes) and the derived-column names are collision-free,
applying `_perform_feature_engineering` to its own output returns that
output unchanged — the second pass adds no columns and leaves every
already-derived column's values as they are. -/
theorem engineering_idempotent {log log1p : ℚ → ℚ} {tax : Credit.Taxonomy}
    {X Y : Credit.Frame}
    (hfresh : ∀ n ∈ Credit.taxNames tax, Credit.freshName n = true)
    (hnodup : (Credit.allCands tax).Nodup)
    (h : Credit.perform_feature_engineering log log1p tax X = .ok Y) :
    Credit.perform_feature_engineering log log1p tax Y = .ok Y := by
  obtain ⟨dIS, dIA, dIL, dSA, dSL, dAL⟩ := Credit.cands_parts_disjoint hnodup
  have hnrY : Y.nrows = X.nrows := Credit.engineering_nrows h
  unfold Credit.perform_feature_engineering at h
  dsimp only at h
  cases hagg : Credit.aggPhase tax
      (Credit.squaredPhase tax (Credit.interactionPhase tax X)) with
  | error e =>
    rw [hagg] at h
    exact absurd h (by simp)
  | ok f3 =>
    rw [hagg] at h
    dsimp only at h
    injection h with h
    have A1 := @Credit.interactionPhase_record tax X hfresh hnodup
    have A2 := Credit.squaredPhase_record hfresh A1.1
    have A3 : Credit.aligned tax X f3 :=
      Credit.aggPhase_aligned hfresh hagg A2.1
    have A4 := @Credit.skewPhase_record log log1p tax X f3 hfresh A3
    have halY : Credit.aligned tax X Y := by
      rw [← h]
      exact A4.1
    have htI : ∀ m ∈ Credit.interCands tax,
        Y.get? m = (Credit.interactionPhase tax X).get? m := by
      intro m hm
      have hIL : ∀ w ∈ Credit.logCands tax, ¬ w = m :=
        fun w hw he => dIL hm (he ▸ hw)
      have hIA : ∀ w ∈ Credit.aggColNames, ¬ w = m :=
        fun w hw he => dIA hm (he ▸ hw)
      have hIS : ∀ w ∈ Credit.squaredCands tax, ¬ w = m :=
        fun w hw he => dIS hm (he ▸ hw)
      rw [← h, Credit.skewPhase_get?_outside hIL,
        Credit.aggPhase_get?_outside hagg hIA,
        Credit.squaredPhase_get?_outside hIS]
    have hrecI : ∀ q ∈ Credit.pairList tax, Credit.interRecordAt X Y q := by
      intro q hq
      obtain ⟨ht5, ha5⟩ := Credit.pairList_mem_elim2 hq
      intro ct ca hXt hXa hnt hna
      obtain ⟨hi, hr⟩ := A1.2 q hq ct ca hXt hXa hnt hna
      constructor
      · rw [htI _ (Credit.interName_mem_cands ht5 ha5)]
        exact hi
      · intro hz
        rw [htI _ (Credit.ratioName_mem_cands ht5 ha5)]
        exact hr hz
    have e1 : Credit.interactionPhase tax Y = Y :=
      Credit.interactionPhase_noop halY hrecI
    have htS : ∀ m ∈ Credit.squaredCands tax,
        Y.get? m =
          (Credit.squaredPhase tax (Credit.interactionPhase tax X)).get? m := by
      intro m hm
      have hSL : ∀ w ∈ Credit.logCands tax, ¬ w = m :=
        fun w hw he => dSL hm (he ▸ hw)
      have hSA : ∀ w ∈ Credit.aggColNames, ¬ w = m :=
        fun w hw he => dSA hm (he ▸ hw)
      rw [← h, Credit.skewPhase_get?_outside hSL,
        Credit.aggPhase_get?_outside hagg hSA]
    have hfilterP : Y.names.filter (Credit.importantPred tax) =
        (Credit.interactionPhase tax X).names.filter (Credit.importantPred tax) := by
      rw [← h,
        Credit.skewPhase_filter_names (fun w hw =>
          Credit.cand_not_important hfresh (Credit.logCands_sub_allCands hw)),
        Credit.aggPhase_filter_names hagg (fun w hw =>
          Credit.cand_not_important hfresh (Credit.aggCols_sub_allCands hw)),
        Credit.squaredPhase_filter_names (fun w hw =>
          Credit.cand_not_important hfresh (Credit.squaredCands_sub_allCands hw))]
    have hrecS : ∀ c ∈ (Y.names.filter (Credit.importantPred tax)).take 5,
        Credit.squaredRecordAt X Y c := by
      intro c hc
      rw [hfilterP] at hc
      intro col hXc
      have hm : c ++ "_squared" ∈ Credit.squaredCands tax := by
        unfold Credit.squaredCands
        rw [List.mem_map]
        exact ⟨c, Credit.mem_of_mem_importantList hc, rfl⟩
      rw [htS _ hm]
      exact A2.2 c hc col hXc
    have e2 : Credit.squaredPhase tax Y = Y :=
      Credit.squaredPhase_noop halY hrecS
    have htA : ∀ w ∈ Credit.aggColNames, Y.get? w = f3.get? w := by
      intro w hw
      have hAL : ∀ w' ∈ Credit.logCands tax, ¬ w' = w :=
        fun w' hw' he => dAL hw (he ▸ hw')
      rw [← h, Credit.skewPhase_get?_outside hAL]
    have hnrf2 : Y.nrows =
        (Credit.squaredPhase tax (Credit.interactionPhase tax X)).nrows := by
      rw [Credit.squaredPhase_nrows, Credit.interactionPhase_nrows, hnrY]
    have e3 : Credit.aggPhase tax Y = .ok Y :=
      Credit.aggPhase_pass2 hfresh hagg A2.1 halY hnrf2 htA
    have hskewL : tax.numeric.filter (fun c =>
        match Y.get? c with
        | some col => Credit.skewGtOne col.vals
        | none => false) =
        tax.numeric.filter (fun c =>
        match f3.get? c with
        | some col => Credit.skewGtOne col.vals
        | none => false) := by
      apply List.filter_congr
      intro c hc
      exact congrArg (fun o : Option Credit.Col =>
          match o with
          | some col => Credit.skewGtOne col.vals
          | none => false)
        ((halY c (Credit.num_mem_taxNames hc)).trans
          (A3 c (Credit.num_mem_taxNames hc)).symm)
    have hrecK : ∀ c ∈ tax.numeric.filter (fun c =>
        match Y.get? c with
        | some col => Credit.skewGtOne col.vals
        | none => false), Credit.skewRecordAt log log1p X Y c := by
      intro c hc
      rw [hskewL] at hc
      intro col hXc
      have hres := A4.2 c hc col hXc
      constructor
      · intro h1
        rw [← h]
        exact hres.1 h1
      · intro h1 h2
        rw [← h]
        exact hres.2 h1 h2
    have e4 : Credit.skewPhase log log1p tax Y = Y :=
      Credit.skewPhase_noop halY hrecK
    unfold Credit.perform_feature_engineering
    dsimp only
    rw [e1, e2, e3]
    dsimp only
    rw [e4]

end LendSmart

namespace LendSmart

/-- Concrete taxonomy for exercising the idempotence theorem. -/
def c5Tax : Credit.Taxonomy :=
  ⟨["credit_score"], ["transaction_score"], [],
   ["credit_score", "transaction_score"]⟩

/-- Concrete input frame for exercising the idempotence theorem. -/
def c5X : Credit.Frame :=
  ⟨2, [("credit_score", ⟨Dtype.float64, [1, 2]⟩),
       ("transaction_score", ⟨Dtype.float64, [3, 4]⟩)]⟩

/-- The engineered output of `c5X`: interaction and ratio columns from the
single (traditional, alternative) pair, then the two squared columns. -/
def c5Y : Credit.Frame :=
  ⟨2, [("credit_score", ⟨Dtype.float64, [1, 2]⟩),
       ("transaction_score", ⟨Dtype.float64, [3, 4]⟩),
       ("interaction_credit_score_transaction_score",
        ⟨Dtype.float64, [3, 8]⟩),
       ("ratio_credit_score_to_transaction_score",
        ⟨Dtype.float64, [1 / 3, 1 / 2]⟩),
       ("credit_score_squared", ⟨Dtype.float64, [1, 4]⟩),
       ("transaction_score_squared", ⟨Dtype.float64, [9, 16]⟩)]⟩

theorem engineering_idempotent_witness :
    (∀ n ∈ Credit.taxNames c5Tax, Credit.freshName n = true) ∧
    (Credit.allCands c5Tax).Nodup ∧
    Credit.perform_feature_engineering id id c5Tax c5X = .ok c5Y ∧
    Credit.perform_feature_engineering id id c5Tax c5Y = .ok c5Y := by
  have h1 : ∀ n ∈ Credit.taxNames c5Tax, Credit.freshName n = true := by decide
  have h2 : (Credit.allCands c5Tax).Nodup := by decide
  have h3 : Credit.perform_feature_engineering id id c5Tax c5X = .ok c5Y := by
    simp [Credit.perform_feature_engineering, Credit.interactionPhase,
      Credit.interOuterStep, Credit.interStep, Credit.ratioStep,
      Credit.squaredPhase, Credit.squaredStep, Credit.importantPred,
      Credit.aggPhase, Credit.skewPhase, Credit.skewStep, Credit.skewGtOne,
      Credit.altScoreCols, Credit.Frame.get?, Credit.getPairs,
      Credit.Frame.set, Credit.setPairs, Credit.Frame.names,
      Credit.numericDtype, Credit.interName, Credit.ratioName,
      Credit.mulDtype, lowerStr, containsStr, listInfix,
      c5Tax, c5X, c5Y]
    try norm_num
  exact ⟨h1, h2, h3, engineering_idempotent h1 h2 h3⟩

end LendSmart
